import Mathlib

/-!
Verification development for the sierra-leone-locations package.

The TypeScript sources are shallowly embedded here:
strings are modelled as `List Char` (`Str`), JavaScript `Map` objects as
insertion-ordered association lists, fallible functions (those that `throw`)
as `Except`-valued functions, and `Date.now()` as an explicit `Nat` argument.
Similarity scores (JS floating-point numbers in `[0,1]`) are modelled as
exact rationals; every score produced by the code under study is a small
rational (1, 4/5, or `1 - d/m`), and no claim depends on float rounding.
All definitions are structural recursions so that concrete executions
reduce inside the kernel.
-/

namespace SL

/-- Strings, modelled as lists of characters. -/
abbrev Str := List Char

/-- ASCII lower-casing, as `String.prototype.toLowerCase` acts on the
ASCII range (the dataset and all claim-relevant inputs are ASCII). -/
def lowerChar (c : Char) : Char :=
  if 'A' ≤ c ∧ c ≤ 'Z' then Char.ofNat (c.toNat + 32) else c

/-- ASCII upper-casing, as `String.prototype.toUpperCase` on ASCII. -/
def upperChar (c : Char) : Char :=
  if 'a' ≤ c ∧ c ≤ 'z' then Char.ofNat (c.toNat - 32) else c

/-- JavaScript regex `\s` restricted to ASCII. -/
def isJsWs (c : Char) : Bool :=
  c == ' ' || c == '\t' || c == '\n' || c == '\r' || c == '\x0b' || c == '\x0c'

/-- JavaScript regex `\w`: `[A-Za-z0-9_]`. -/
def isWordChar (c : Char) : Bool :=
  (decide ('a' ≤ c) && decide (c ≤ 'z')) ||
  (decide ('A' ≤ c) && decide (c ≤ 'Z')) ||
  (decide ('0' ≤ c) && decide (c ≤ '9')) || c == '_'

/-- JavaScript digit class `\d`. -/
def isDigitChar (c : Char) : Bool :=
  decide ('0' ≤ c) && decide (c ≤ '9')

/-- `String.prototype.trim`: drop whitespace from both ends. -/
def trim (l : Str) : Str :=
  ((l.dropWhile isJsWs).reverse.dropWhile isJsWs).reverse

/-- Worker for `collapseWs`; the flag records whether the previous
character was whitespace (i.e. we are inside a run already collapsed). -/
def collapseGo : Bool → Str → Str
  | _, [] => []
  | inWs, c :: rest =>
    if isJsWs c then
      if inWs then collapseGo true rest else ' ' :: collapseGo true rest
    else c :: collapseGo false rest

/-- `.replace(/\s+/g, ' ')`: collapse every whitespace run to one space. -/
def collapseWs (l : Str) : Str := collapseGo false l

/-- The character class `[\w\s-]` kept by `normalize`'s final step. -/
def benignChar (c : Char) : Bool := isWordChar c || isJsWs c || c == '-'

/-- `.replace(/[^\w\s-]/g, '')`: keep word characters, whitespace, hyphen. -/
def stripNonWord (l : Str) : Str :=
  l.filter benignChar

/-- `normalize` from `src/utils/normalize.ts`:
lower-case, trim, collapse whitespace runs, then strip punctuation. -/
def normalize (l : Str) : Str :=
  stripNonWord (collapseWs (trim (l.map lowerChar)))

/-- Is `p` a prefix of the second list (used for substring scanning). -/
def isPrefixList : Str → Str → Bool
  | [], _ => true
  | _ :: _, [] => false
  | a :: as, b :: bs => a == b && isPrefixList as bs

/-- JavaScript `hay.includes(needle)`: `containsSub needle hay`. -/
def containsSub (needle : Str) : Str → Bool
  | [] => isPrefixList needle []
  | c :: rest => isPrefixList needle (c :: rest) || containsSub needle rest

/-- One row step of the Levenshtein dynamic program in
`calculateSimilarity`: `prev` is the previous matrix row (indexed by
positions of `s1`), `left` the entry just computed in the current row.
Mirrors `matrix[i][j] = matrix[i-1][j-1]` on equality, else
`min(matrix[i-1][j-1]+1, matrix[i][j-1]+1, matrix[i-1][j]+1)`. -/
def levRowGo (c2 : Char) : Str → List Nat → Nat → List Nat
  | [], _, _ => []
  | c1 :: rest1, pdiag :: pup :: prest, left =>
    let cur := if c2 = c1 then pdiag
               else Nat.min (pdiag + 1) (Nat.min (left + 1) (pup + 1))
    cur :: levRowGo c2 rest1 (pup :: prest) cur
  | _ :: _, _, _ => []

/-- Last element of a row (the bottom-right matrix entry). -/
def lastD (l : List Nat) (d : Nat) : Nat := l.foldl (fun _ x => x) d

/-- The Levenshtein distance matrix computation of `calculateSimilarity`
(rows indexed by `s2`, columns by `s1`, exactly as in the source). -/
def lev (s1 s2 : Str) : Nat :=
  let row0 := List.range (s1.length + 1)
  let final :=
    s2.foldl (fun (p : List Nat × Nat) c2 =>
      let i := p.2 + 1
      (i :: levRowGo c2 s1 p.1 i, i)) (row0, 0)
  lastD final.1 0

/-- Exact fractions for similarity scores.  JS numbers are binary floats;
every comparison made by the code under study is far from any rounding
boundary, so exact fractions are a faithful model.  Fractions are kept
unnormalized (no gcd) so that all arithmetic reduces in the kernel;
they are compared by cross-multiplication. -/
structure Q where
  num : Int
  den : Nat
deriving Repr, DecidableEq

/-- Numeric equality of scores (`a/b = c/d` iff `a*d = c*b`). -/
def qEq (a b : Q) : Bool := a.num * (b.den : Int) == b.num * (a.den : Int)

/-- Numeric strict order on scores. -/
def qLt (a b : Q) : Bool := decide (a.num * (b.den : Int) < b.num * (a.den : Int))

/-- Numeric non-strict order on scores. -/
def qLe (a b : Q) : Bool := decide (a.num * (b.den : Int) ≤ b.num * (a.den : Int))

/-- Score product (used for the 0.8 fuzzy penalty). -/
def qMul (a b : Q) : Q := ⟨a.num * b.num, a.den * b.den⟩

/-- The score 1.0. -/
def qOne : Q := ⟨1, 1⟩

/-- The score 0.8. -/
def qPoint8 : Q := ⟨4, 5⟩

/-- The score 0.3. -/
def qPoint3 : Q := ⟨3, 10⟩

/-- `n / 2` as a score (for the `limit / 2` test in `search`). -/
def qHalf (n : Nat) : Q := ⟨n, 2⟩

/-- A natural number as a score. -/
def qNat (n : Nat) : Q := ⟨n, 1⟩

/-- `calculateSimilarity` from `src/utils/normalize.ts`. -/
def calculateSimilarity (str1 str2 : Str) : Q :=
  let s1 := normalize str1
  let s2 := normalize str2
  if s1 = s2 then qOne
  else if containsSub s2 s1 || containsSub s1 s2 then qPoint8
  else
    let d := lev s1 s2
    let m := max s1.length s2.length
    if m = 0 then qOne else ⟨(m : Int) - (d : Int), m⟩

/-! ### The regex patterns of `src/utils/security.ts`

Each pattern of `SecurityValidator` is a small regex over literals,
character classes, `*` repetition and word boundaries.  They are
modelled by an explicit backtracking matcher.  Two deliberate,
claim-irrelevant simplifications: `.` matches any character (JS excludes
line terminators), and each test starts from index 0 (JS `RegExp.test`
with the `g` flag keeps `lastIndex` between calls, which can only make
the real code match less often after a previous match threw). -/

/-- One regex piece: case-insensitive literal char (stored lower-case),
a one-char class, a starred class, or a word boundary. -/
inductive Piece where
  | lit : Char → Piece
  | cls : (Char → Bool) → Piece
  | star : (Char → Bool) → Piece
  | wb : Piece

/-- Does the option hold a word character (for `\b`)? -/
def isWordOpt : Option Char → Bool
  | some c => isWordChar c
  | none => false

/-- Fuel-indexed backtracking matcher: does the piece sequence match a
prefix of `l`, given the previous character `prev`?  Fuel
`ps.length + l.length + 1` always suffices (every step shrinks the sum). -/
def matchPieces : Nat → List Piece → Str → Option Char → Bool
  | 0, _, _, _ => false
  | _ + 1, [], _, _ => true
  | f + 1, .wb :: ps, [], prev =>
    (isWordOpt prev != isWordOpt none) && matchPieces f ps [] prev
  | f + 1, .wb :: ps, d :: l, prev =>
    (isWordOpt prev != isWordOpt (some d)) && matchPieces f ps (d :: l) prev
  | _ + 1, .lit _ :: _, [], _ => false
  | f + 1, .lit c :: ps, d :: l, _ => lowerChar d == c && matchPieces f ps l (some d)
  | _ + 1, .cls _ :: _, [], _ => false
  | f + 1, .cls g :: ps, d :: l, _ => g d && matchPieces f ps l (some d)
  | f + 1, .star _ :: ps, [], prev => matchPieces f ps [] prev
  | f + 1, .star g :: ps, d :: l, prev =>
    matchPieces f ps (d :: l) prev ||
      (g d && matchPieces f (.star g :: ps) l (some d))

/-- Try the piece sequence at every start position of `s` (unanchored
regex search), tracking the previous character for word boundaries. -/
def scanMatch (ps : List Piece) : Str → Option Char → Bool
  | l, prev =>
    matchPieces (ps.length + l.length + 1) ps l prev ||
      (match l with
       | [] => false
       | c :: l' => scanMatch ps l' (some c))

/-- A whole pattern is a list of top-level alternatives. -/
def testPattern (alts : List (List Piece)) (s : Str) : Bool :=
  alts.any (fun ps => scanMatch ps s none)

/-- Case-insensitive literal pieces from a string. -/
def lits (s : String) : List Piece := s.data.map Piece.lit

/-- `\s*` -/
def wsStar : Piece := .star isJsWs

/-- `.*` (any-char approximation, see note above) -/
def anyStar : Piece := .star (fun _ => true)

/-- `\w+` -/
def wordPlus : List Piece := [.cls isWordChar, .star isWordChar]

/-- `\d+` -/
def digitPlus : List Piece := [.cls isDigitChar, .star isDigitChar]

/-- `\s+` -/
def wsPlus : List Piece := [.cls isJsWs, wsStar]

/-- The single-quote character. -/
def quoteChar : Char := Char.ofNat 39

/-- The double-quote character. -/
def dquoteChar : Char := Char.ofNat 34

/-- The backtick character. -/
def btickChar : Char := Char.ofNat 96

/-- The backslash character. -/
def bslashChar : Char := Char.ofNat 92

/-- `SQL_INJECTION_PATTERNS` of `SecurityValidator`, in source order. -/
def sqlInjectionPatterns : List (List (List Piece)) :=
  [ -- /(\b(or|and)\b\s*\d+\s*=\s*\d+)/gi
    [[.wb] ++ lits ("or") ++ [.wb, wsStar] ++ digitPlus ++ [wsStar, .lit '=', wsStar] ++ digitPlus,
     [.wb] ++ lits ("and") ++ [.wb, wsStar] ++ digitPlus ++ [wsStar, .lit '=', wsStar] ++ digitPlus],
    -- /'.*\b(or|and)\b.*'/gi
    [[.lit quoteChar, anyStar, .wb] ++ lits ("or") ++ [.wb, anyStar, .lit quoteChar],
     [.lit quoteChar, anyStar, .wb] ++ lits ("and") ++ [.wb, anyStar, .lit quoteChar]],
    -- /(--|#|\/\*|\*\/)/gi
    [lits ("--"), lits ("#"), lits ("/*"), lits ("*/")],
    -- /(benchmark|sleep|waitfor|delay)\s*\(/gi
    [lits ("benchmark") ++ [wsStar, .lit '('],
     lits ("sleep") ++ [wsStar, .lit '('],
     lits ("waitfor") ++ [wsStar, .lit '('],
     lits ("delay") ++ [wsStar, .lit '(']],
    -- /(\bunion\b\s+\bselect\b)/gi
    [[.wb] ++ lits ("union") ++ [.wb] ++ wsPlus ++ [.wb] ++ lits ("select") ++ [.wb]],
    -- /('\s*;\s*\w+)/gi
    [[.lit quoteChar, wsStar, .lit ';', wsStar] ++ wordPlus] ]

/-- `BLOCKED_PATTERNS` of `SecurityValidator`, in source order. -/
def blockedPatterns : List (List (List Piece)) :=
  [ [lits ("<script")],
    [lits ("javascript:")],
    [lits ("on") ++ wordPlus ++ [wsStar, .lit '=']],
    [lits ("eval(")],
    [lits ("expression(")],
    [lits ("vbscript:")],
    [lits ("import") ++ wsPlus],
    [lits ("require") ++ [wsStar, .lit '(']],
    [lits ("..")],
    [lits ("file:")],
    [lits ("data:")],
    [[.wb] ++ lits ("exec") ++ [.wb]],
    [[.wb] ++ lits ("system") ++ [.wb]],
    [[.wb] ++ lits ("drop") ++ [.wb]],
    [[.wb] ++ lits ("delete") ++ [.wb]],
    [[.wb] ++ lits ("union") ++ [.wb]],
    [[.wb] ++ lits ("select") ++ [.wb, anyStar, .wb] ++ lits ("from") ++ [.wb]] ]

/-- The characters removed by `.replace(/[<>'"`;\\]/g, '')`. -/
def dangerousChars : List Char :=
  ['<', '>', quoteChar, dquoteChar, btickChar, ';', bslashChar]

/-- Drop every character in `bad`. -/
def removeChars (bad : List Char) (l : Str) : Str :=
  l.filter (fun c => !(decide (c ∈ bad)))

/-- Skip to just past the first `>` (the end of an HTML tag), if any. -/
def findGt : Str → Option Str
  | [] => none
  | c :: rest => if c = '>' then some rest else findGt rest

/-- Fuel-indexed worker for `removeHtmlTags`; fuel `l.length` suffices. -/
def removeTagsGo : Nat → Str → Str
  | 0, l => l
  | _ + 1, [] => []
  | f + 1, c :: rest =>
    if c = '<' then
      match findGt rest with
      | some rest' => removeTagsGo f rest'
      | none => c :: removeTagsGo f rest
    else c :: removeTagsGo f rest

/-- `.replace(/<[^>]*>/g, '')`: delete every `<...>` tag. -/
def removeHtmlTags (l : Str) : Str := removeTagsGo l.length l

/-- The error outcomes (`throw`s) of the modelled code. -/
inductive Err where
  | tooLong
  | tooShort
  | sqlPattern
  | blockedPattern
  | rateLimited
deriving Repr, DecidableEq

/-- `SecurityValidator.sanitize`: length check, SQL-pattern check,
blocked-pattern check, then tag removal, dangerous-character removal,
whitespace collapsing and trimming. -/
def sanitize (input : Str) : Except Err Str :=
  if input = [] then .ok []
  else if 200 < input.length then .error .tooLong
  else if sqlInjectionPatterns.any (fun p => testPattern p input) then .error .sqlPattern
  else if blockedPatterns.any (fun p => testPattern p input) then .error .blockedPattern
  else .ok (trim (collapseWs (removeChars dangerousChars (removeHtmlTags input))))

/-- `SecurityValidator.sanitizeSearchQuery`: empty passes through, then
the 100-char cap and the 2-char minimum are checked on the RAW query,
then `sanitize` runs. -/
def sanitizeSearchQuery (query : Str) : Except Err Str :=
  if query = [] then .ok []
  else if 100 < query.length then .error .tooLong
  else if query.length < 2 then .error .tooShort
  else sanitize query

/-- Per-client request-timestamp store (a JS `Map<string, number[]>`). -/
abbrev RateMap := List (Str × List Nat)

/-- JS `Map.set`: update in place if present, else append. -/
def setA {β : Type} : List (Str × β) → Str → β → List (Str × β)
  | [], k, v => [(k, v)]
  | (k', v') :: rest, k, v =>
    if k' = k then (k, v) :: rest else (k', v') :: setA rest k v

/-- JS `Map.get`. -/
def lookupA {β : Type} : List (Str × β) → Str → Option β
  | [], _ => none
  | (k', v') :: rest, k => if k' = k then some v' else lookupA rest k

/-- `SecurityValidator.checkRateLimit`: sliding-window rate limiter with
`Date.now()` passed explicitly as `now`. -/
def checkRateLimit (identifier : Str) (requests : RateMap)
    (maxRequests windowMs now : Nat) : Bool × RateMap :=
  match lookupA requests identifier with
  | none => (true, setA requests identifier [now])
  | some timestamps =>
    let recent := timestamps.filter (fun t => now - t < windowMs)
    if maxRequests ≤ recent.length then (false, requests)
    else (true, setA requests identifier (recent ++ [now]))

deriving instance DecidableEq for Except

/-! ### SearchService (`src/core/SearchService.ts`) -/

/-- The `LocationType` string union of `src/types`. -/
inductive LType where
  | region | province | district | council | chiefdom | section | town | village
deriving DecidableEq, Repr

/-- The string form of a `LocationType` (as interpolated by JS). -/
def ltypeStr : LType → Str
  | .region => ("region").data
  | .province => ("province").data
  | .district => ("district").data
  | .council => ("council").data
  | .chiefdom => ("chiefdom").data
  | .section => ("section").data
  | .town => ("town").data
  | .village => ("village").data

/-- Lower-case a whole string. -/
def lowerStr (l : Str) : Str := l.map lowerChar

/-- Upper-case a whole string. -/
def upperStr (l : Str) : Str := l.map upperChar

/-- `SearchService.normalizeLocationType`: the `typeMap` lookup with
fallback `'town'`. -/
def normalizeLocationType (ty : Str) : LType :=
  let t := lowerStr ty
  if t = ("region").data then .region
  else if t = ("province").data then .province
  else if t = ("district").data then .district
  else if t = ("council").data then .council
  else if t = ("chiefdom").data then .chiefdom
  else if t = ("section").data then .section
  else if t = ("town").data then .town
  else if t = ("village").data then .village
  else .town

/-- A raw CSV record (`LocationRecord` of `src/types`). -/
structure Rec where
  idregion : Str
  iddistrict : Str
  idcouncil : Str
  idchiefdom : Str
  idsection : Str
  idtown : Str
deriving DecidableEq, Repr

/-- `SearchIndexEntry` of `src/types` (the optional `partialMatch` flag
defaults to absent = false). -/
structure Entry where
  name : Str
  type : LType
  normalized : Str
  record : Rec
  partMatch : Bool
deriving DecidableEq, Repr

/-- The inverted index: a JS `Map<string, SearchIndexEntry[]>`. -/
abbrev Index := List (Str × List Entry)

/-- `SearchService.addEntryToKey`: create the key if missing, then push
the entry unless an identical (name, type, normalized) triple is there. -/
def addEntryToKey (idx : Index) (key : Str) (entry : Entry) : Index :=
  match lookupA idx key with
  | none => setA idx key [entry]
  | some entries =>
    let dup := entries.any (fun e =>
      decide (e.name = entry.name) && decide (e.type = entry.type) &&
      decide (e.normalized = entry.normalized))
    if dup then idx else setA idx key (entries ++ [entry])

/-- Vowels removed by `getPhoneticKey` (the regex has no `i` flag and is
applied to already-lower-cased text). -/
def isVowel (c : Char) : Bool :=
  c == 'a' || c == 'e' || c == 'i' || c == 'o' || c == 'u'

/-- Worker collapsing runs of the previous character. -/
def collapseRunsGo (prev : Char) : Str → Str
  | [] => []
  | c :: rest =>
    if c = prev then collapseRunsGo prev rest else c :: collapseRunsGo c rest

/-- `.replace(/(.)\1+/g, '$1')`: collapse immediately-repeated characters
(inputs are normalized keys, so the JS dot's newline exclusion is moot). -/
def collapseRuns : Str → Str
  | [] => []
  | c :: rest => c :: collapseRunsGo c rest

/-- `SearchService.getPhoneticKey`: drop vowels, collapse repeats, keep
the first 6 characters. -/
def getPhoneticKey (text : Str) : Str :=
  (collapseRuns (text.filter (fun c => !(isVowel c)))).take 6

/-- Worker for `splitOnSpace`. -/
def splitGo : Str → Str → List Str
  | [], acc => [acc.reverse]
  | c :: rest, acc =>
    if c = ' ' then acc.reverse :: splitGo rest [] else splitGo rest (c :: acc)

/-- JS `String.prototype.split(' ')`: exact-character split, producing
empty fields for adjacent spaces. -/
def splitOnSpace (l : Str) : List Str := splitGo l []

/-- `SearchService.addToIndex`: index under the normalized full name,
under each word of length > 2 (when multi-word), and under the phonetic
key when it differs. -/
def addToIndex (idx : Index) (name : Str) (ty : Str) (record : Rec) : Index :=
  if name = [] ∨ trim name = [] then idx
  else
    let normalized := normalize name
    let entry : Entry := ⟨trim name, normalizeLocationType ty, normalized, record, false⟩
    let idx1 := addEntryToKey idx normalized entry
    let words := splitOnSpace normalized
    let idx2 :=
      if 1 < words.length then
        words.foldl (fun acc w =>
          if 2 < w.length then addEntryToKey acc w {entry with partMatch := true}
          else acc) idx1
      else idx1
    let pk := getPhoneticKey normalized
    if pk ≠ normalized then addEntryToKey idx2 pk {entry with partMatch := true} else idx2

/-- The six `addToIndex` calls of `buildSearchIndex` for one record,
in source order. -/
def recordFields (r : Rec) : List (Str × Str) :=
  [(r.idregion, ("region").data), (r.iddistrict, ("district").data),
   (r.idcouncil, ("council").data), (r.idchiefdom, ("chiefdom").data),
   (r.idsection, ("section").data), (r.idtown, ("town").data)]

/-- Index one record. -/
def addRecord (idx : Index) (r : Rec) : Index :=
  (recordFields r).foldl (fun acc p => addToIndex acc p.1 p.2 r) idx

/-- `SearchService.buildSearchIndex` over the record list. -/
def buildSearchIndex (records : List Rec) : Index :=
  records.foldl addRecord []

/-- `SearchResult` of `src/types`. -/
structure SearchResult where
  name : Str
  type : LType
  fullPath : Str
  code : Str
  score : Q
deriving DecidableEq, Repr

/-- `SearchService.buildFullPath` (JS truthiness of a string is
non-emptiness). -/
def buildFullPath (entry : Entry) : Str :=
  let r := entry.record
  let parts : List Str :=
    (if r.idregion ≠ [] then [r.idregion] else []) ++
    (if r.iddistrict ≠ [] ∧ r.iddistrict ≠ r.idregion then [r.iddistrict] else []) ++
    (if r.idchiefdom ≠ [] ∧ r.idchiefdom ≠ r.iddistrict then [r.idchiefdom] else []) ++
    (if entry.name ≠ r.idchiefdom then [entry.name] else [])
  joinSep (" > ".data) parts
where
  joinSep (sep : Str) : List Str → Str
    | [] => []
    | x :: xs => match xs with
      | [] => x
      | _ :: _ => x ++ sep ++ joinSep sep xs

/-- `SearchService.createSearchResult` (note: the code interpolates the
lower-cased, unnormalized-length `normalize(entry.name)` after the
upper-cased type). -/
def createSearchResult (entry : Entry) (score : Q) : SearchResult :=
  ⟨entry.name, entry.type, buildFullPath entry,
   ("SL-").data ++ upperStr (ltypeStr entry.type) ++ ("-").data ++ normalize entry.name,
   score⟩

/-- The `${entry.name}-${entry.type}` dedup key of `search`. -/
def seenKey (name : Str) (ty : LType) : Str := name ++ ("-").data ++ ltypeStr ty

/-- Stable insertion keeping descending score order (JS `sort` is stable;
an element is placed after all earlier elements of ≥ score). -/
def insertByScore {α : Type} (sc : α → Q) (x : α) : List α → List α
  | [] => [x]
  | y :: ys => if qLt (sc y) (sc x) then x :: y :: ys else y :: insertByScore sc x ys

/-- Stable descending sort by score (`.sort((a, b) => b.score - a.score)`). -/
def sortByScore {α : Type} (sc : α → Q) (l : List α) : List α :=
  l.foldl (fun acc x => insertByScore sc x acc) []

/-- `SearchOptions` with every field present (the JS destructuring
defaults are applied by `defaultSearchOptions`). -/
structure SearchOptions where
  limit : Nat
  minScore : Q
  types : List LType
  fuzzy : Bool
deriving Repr

/-- The destructuring defaults of `search`. -/
def defaultSearchOptions : SearchOptions :=
  ⟨20, qPoint3, [.region, .district, .council, .chiefdom, .section, .town], true⟩

/-- Mutable state of a `SearchService` instance. -/
structure SSState where
  searchIndex : Index
  rateLimit : RateMap
deriving Repr

/-- The exact-match tier of `search`: every entry under the normalized
query key is scored 1.0, filtered by type and deduplicated. -/
def exactTier (entries : List Entry) (types : List LType) :
    List SearchResult × List Str :=
  entries.foldl (fun acc entry =>
    if decide (entry.type ∈ types) && !(decide (seenKey entry.name entry.type ∈ acc.2)) then
      (acc.1 ++ [createSearchResult entry qOne], acc.2 ++ [seenKey entry.name entry.type])
    else acc) ([], [])

/-- The per-word partial tier of `search`. -/
def partialTier (idx : Index) (normalized : Str) (types : List LType) (minScore : Q)
    (acc : List SearchResult × List Str) : List SearchResult × List Str :=
  (splitOnSpace normalized).foldl (fun acc word =>
    if 2 < word.length then
      ((lookupA idx word).getD []).foldl (fun acc entry =>
        if decide (entry.type ∈ types) && !(decide (seenKey entry.name entry.type ∈ acc.2)) then
          let score := calculateSimilarity normalized entry.normalized
          if qLe minScore score then
            (acc.1 ++ [createSearchResult entry score], acc.2 ++ [seenKey entry.name entry.type])
          else acc
        else acc) acc
    else acc) acc

/-- The phonetic fuzzy tier of `search` (scores multiplied by 0.8). -/
def fuzzyTier (idx : Index) (normalized : Str) (types : List LType) (minScore : Q)
    (acc : List SearchResult × List Str) : List SearchResult × List Str :=
  ((lookupA idx (getPhoneticKey normalized)).getD []).foldl (fun acc entry =>
    if decide (entry.type ∈ types) && !(decide (seenKey entry.name entry.type ∈ acc.2)) then
      let score := qMul (calculateSimilarity normalized entry.normalized) qPoint8
      if qLe minScore score then
        (acc.1 ++ [createSearchResult entry score], acc.2 ++ [seenKey entry.name entry.type])
      else acc
    else acc) acc

/-- `SearchService.search`: rate limit (30 per 60 s, shared map), raw
sanitization, then the three tiers, sort and truncation.  The state is
returned alongside so that `throw`s preserve the mutated rate map. -/
def search (st : SSState) (query : Str) (opts : SearchOptions) (clientId : Str)
    (now : Nat) : Except Err (List SearchResult) × SSState :=
  let adm := checkRateLimit clientId st.rateLimit 30 60000 now
  let st1 : SSState := ⟨st.searchIndex, adm.2⟩
  if !adm.1 then (.error .rateLimited, st1)
  else match sanitizeSearchQuery query with
    | .error e => (.error e, st1)
    | .ok sanitized =>
      if sanitized = [] then (.ok [], st1)
      else
        let normalized := normalize sanitized
        let acc1 := exactTier ((lookupA st1.searchIndex normalized).getD []) opts.types
        let acc2 :=
          if acc1.1.length < opts.limit then
            partialTier st1.searchIndex normalized opts.types opts.minScore acc1
          else acc1
        let acc3 :=
          if opts.fuzzy && qLt (qNat acc2.1.length) (qHalf opts.limit) then
            fuzzyTier st1.searchIndex normalized opts.types opts.minScore acc2
          else acc2
        (.ok ((sortByScore (fun r => r.score) acc3.1).take opts.limit), st1)

/-- An autocomplete candidate (`{ name, score }`). -/
structure ACItem where
  name : Str
  score : Q
deriving DecidableEq, Repr

/-- `SearchService.autocomplete`: rate limit (50 per 60 s, same shared
map as `search`), sanitization, silent empty result for short sanitized
queries, then a scan of every index key. -/
def autocomplete (st : SSState) (query : Str) (clientId : Str) (lim : Nat)
    (now : Nat) : Except Err (List Str) × SSState :=
  let adm := checkRateLimit clientId st.rateLimit 50 60000 now
  let st1 : SSState := ⟨st.searchIndex, adm.2⟩
  if !adm.1 then (.error .rateLimited, st1)
  else match sanitizeSearchQuery query with
    | .error e => (.error e, st1)
    | .ok sanitized =>
      if sanitized = [] ∨ sanitized.length < 2 then (.ok [], st1)
      else
        let normalized := normalize sanitized
        let items := st1.searchIndex.foldl (fun (acc : List ACItem × List Str) kv =>
          if containsSub normalized kv.1 || containsSub kv.1 normalized then
            kv.2.foldl (fun acc entry =>
              if !(decide (entry.name ∈ acc.2)) then
                let score := calculateSimilarity normalized entry.normalized
                if qLt qPoint3 score then
                  (acc.1 ++ [⟨entry.name, score⟩], acc.2 ++ [entry.name])
                else acc
              else acc) acc
          else acc) ([], [])
        (.ok (((sortByScore (fun i => i.score) items.1).take lim).map (fun i => i.name)), st1)

/-! ### LocationService cache and findPlace (`src/core/LocationService.ts`) -/

/-- `private readonly maxCacheSize = 1000`. -/
def maxCacheSize : Nat := 1000

/-- The cache pair: `cache` and `cacheAccessTimes`, always keyed alike. -/
structure CacheSt (α : Type) where
  cache : List (Str × α)
  times : List (Str × Nat)
deriving Repr, DecidableEq

/-- JS `Map.delete`. -/
def delA {β : Type} (l : List (Str × β)) (k : Str) : List (Str × β) :=
  l.filter (fun p => !(decide (p.1 = k)))

/-- The linear scan of `manageCacheSize`: starts from
`oldestKey = ''`, `oldestTime = Date.now()` and takes strictly older
entries only. -/
def findOldest (init : Nat) (l : List (Str × Nat)) : Str × Nat :=
  l.foldl (fun best p => if p.2 < best.2 then p else best) ([], init)

/-- `LocationService.manageCacheSize`. -/
def manageCacheSize {α : Type} (st : CacheSt α) (now : Nat) : CacheSt α :=
  if maxCacheSize ≤ st.cache.length then
    let old := findOldest now st.times
    if old.1 ≠ [] then ⟨delA st.cache old.1, delA st.times old.1⟩ else st
  else st

/-- `LocationService.getFromCache`: refresh the access time on presence
and return the stored value; `undefined` (`none`) on absence. -/
def getFromCache {α : Type} (st : CacheSt α) (key : Str) (now : Nat) :
    Option α × CacheSt α :=
  if (lookupA st.cache key).isSome then
    (lookupA st.cache key, ⟨st.cache, setA st.times key now⟩)
  else (none, st)

/-- `LocationService.setToCache`: evict (maybe), then store. -/
def setToCache {α : Type} (st : CacheSt α) (key : Str) (v : α) (now : Nat) :
    CacheSt α :=
  let st1 := manageCacheSize st now
  ⟨setA st1.cache key v, setA st1.times key now⟩

/-- A cache operation of the public surface: a keyed read or a keyed
write, each stamped with its `Date.now()` value. -/
inductive COp (α : Type) where
  | cget : Str → COp α
  | cset : Str → α → COp α

/-- The key an operation touches. -/
def copKey {α : Type} : COp α → Str
  | .cget k => k
  | .cset k _ => k

/-- Run one timed cache operation. -/
def stepOp {α : Type} (st : CacheSt α) (p : COp α × Nat) : CacheSt α :=
  match p.1 with
  | .cget k => (getFromCache st k p.2).2
  | .cset k v => setToCache st k v p.2

/-- Run a timed trace of cache operations. -/
def runOps {α : Type} (trace : List (COp α × Nat)) (st : CacheSt α) : CacheSt α :=
  trace.foldl stepOp st

/-- The empty cache. -/
def emptyCache {α : Type} : CacheSt α := ⟨[], []⟩

/-- `PlaceDetails` (the fields `findPlace` populates). -/
structure PD where
  name : Str
  type : LType
  code : Str
  province : Str
  district : Str
  chiefdom : Str
deriving DecidableEq, Repr

/-- The `unknown` values LocationService stores in its cache: result
arrays, single places, and `null`. -/
inductive LSVal where
  | places : List PD → LSVal
  | place : PD → LSVal
  | nullV : LSVal
deriving DecidableEq, Repr

/-- JS truthiness of a cached value: arrays and objects are truthy
(even an empty array), `null` is falsy. -/
def truthyLS : LSVal → Bool
  | .places _ => true
  | .place _ => true
  | .nullV => false

/-- Truthiness of `getFromCache`'s result (`undefined` is falsy). -/
def truthyOpt : Option LSVal → Bool
  | some v => truthyLS v
  | none => false

/-- Decimal digit. -/
def digitChar (d : Nat) : Char := Char.ofNat (48 + d)

/-- Fuel-indexed decimal rendering. -/
def natCharsGo : Nat → Nat → Str
  | 0, _ => []
  | f + 1, n => if n < 10 then [digitChar n] else natCharsGo f (n / 10) ++ [digitChar (n % 10)]

/-- Decimal rendering of a number (for interpolated cache keys). -/
def natChars (n : Nat) : Str := natCharsGo (n + 1) n

/-- Mutable state of the `LocationService` singleton (the parts the
modelled operations read: raw records, its search index, the cache). -/
structure LSState where
  rawData : List Rec
  searchIndex : Index
  cacheSt : CacheSt LSVal
deriving Repr, DecidableEq

/-- Length of a cached value, as `searchResults.length` evaluates in JS
on the reachable (array-valued) inputs. -/
def lengthOfVal : LSVal → Nat
  | .places l => l.length
  | _ => 0

/-- First element, as `searchResults[0]` on the reachable inputs. -/
def headVal : LSVal → LSVal
  | .places (p :: _) => .place p
  | v => v

/-- JS `Map` dedup of `search` results keyed by `code`: first-occurrence
position, last-occurrence value. -/
def dedupeByCode (l : List PD) : List PD :=
  (l.foldl (fun m r => setA m r.code r) []).map (fun p => p.2)

/-- The partial-match loop of `LocationService.search` (pushes
`partialMatch` entries per query word, breaking once `limit` is
reached). -/
def lsPartialLoop (idx : Index) (lim : Nat) : List Str → List Entry → List Entry
  | [], acc => acc
  | w :: ws, acc =>
    let acc1 := acc ++ ((lookupA idx w).getD []).filter (fun e => e.partMatch)
    if lim ≤ acc1.length then acc1 else lsPartialLoop idx lim ws acc1

/-- `LocationService.search` (the fuzzy-search fallback `findPlace`
uses): guard, sanitize, cache lookup by interpolated key, index scan,
mapping to `PlaceDetails`, dedup by code, truncation, cache store. -/
def lsSearch (st : LSState) (query : Str) (lim : Nat) (now : Nat) :
    Except Err LSVal × LSState :=
  if query = [] ∨ (trim query).length < 2 then (.ok (.places []), st)
  else match sanitize query with
  | .error e => (.error e, st)
  | .ok sanitized =>
    let normalized := normalize sanitized
    let cacheKey := ("search-").data ++ normalized ++ ("-").data ++ natChars lim
    let got := getFromCache st.cacheSt cacheKey now
    let st1 : LSState := ⟨st.rawData, st.searchIndex, got.2⟩
    match got.1 with
    | some v =>
      if truthyLS v then (.ok v, st1)
      else lsSearchMiss st1 normalized cacheKey lim now
    | none => lsSearchMiss st1 normalized cacheKey lim now
where
  lsSearchMiss (st1 : LSState) (normalized cacheKey : Str) (lim now : Nat) :
      Except Err LSVal × LSState :=
    let queryWords := (splitOnSpace normalized).filter (fun w => 1 < w.length)
    let indexResults := (lookupA st1.searchIndex normalized).getD []
    let base := indexResults.take lim
    let entries :=
      if base.length < lim then lsPartialLoop st1.searchIndex lim queryWords base
      else base
    let results : List PD := entries.map (fun entry =>
      ⟨entry.name, entry.type,
       ("SL-").data ++ upperStr (ltypeStr entry.type) ++ ("-").data ++ normalize entry.name,
       entry.record.idregion, entry.record.iddistrict, entry.record.idchiefdom⟩)
    let unique := (dedupeByCode results).take lim
    let cst := setToCache st1.cacheSt cacheKey (.places unique) now
    (.ok (.places unique), ⟨st1.rawData, st1.searchIndex, cst⟩)

/-- The `place-` cache key of `findPlace`. -/
def placeKey (normalized : Str) : Str := ("place-").data ++ normalized

/-- Everything `findPlace` does after the cache-truthiness test fails:
exact raw-data scan, fuzzy `search` fallback, negative-result caching. -/
def findPlaceMiss (st : LSState) (sanitized normalized : Str) (now : Nat) :
    Except Err LSVal × LSState :=
  let cacheKey := placeKey normalized
  match st.rawData.find? (fun r =>
      decide (normalize r.idtown = normalized) ||
      decide (normalize r.idchiefdom = normalized) ||
      decide (normalize r.iddistrict = normalized) ||
      decide (normalize r.idregion = normalized)) with
  | some r =>
    let place : PD := ⟨r.idtown, .town, ("SL-TOWN-").data ++ normalize r.idtown,
      r.idregion, r.iddistrict, r.idchiefdom⟩
    (.ok (.place place),
     ⟨st.rawData, st.searchIndex, setToCache st.cacheSt cacheKey (.place place) now⟩)
  | none =>
    match lsSearch st sanitized 1 now with
    | (.error e, st2) => (.error e, st2)
    | (.ok v, st2) =>
      if 0 < lengthOfVal v then
        let result := headVal v
        (.ok result,
         ⟨st2.rawData, st2.searchIndex, setToCache st2.cacheSt cacheKey result now⟩)
      else
        (.ok .nullV,
         ⟨st2.rawData, st2.searchIndex, setToCache st2.cacheSt cacheKey .nullV now⟩)

/-- `LocationService.findPlace`: sanitize, cache probe tested by
truthiness (`if (cached) return cached`), else the miss path. -/
def findPlace (st : LSState) (name : Str) (now : Nat) : Except Err LSVal × LSState :=
  match sanitize name with
  | .error e => (.error e, st)
  | .ok sanitized =>
    let normalized := normalize sanitized
    let got := getFromCache st.cacheSt (placeKey normalized) now
    let st1 : LSState := ⟨st.rawData, st.searchIndex, got.2⟩
    if truthyOpt got.1 then (.ok ((got.1).getD .nullV), st1)
    else findPlaceMiss st1 sanitized normalized now

/-! ### The data-processor code generator (`scripts/process-data.js`) -/

/-- Upper-case ASCII alphanumerics (`[A-Z0-9]`). -/
def isUpperAlnum (c : Char) : Bool :=
  (decide ('A' ≤ c) && decide (c ≤ 'Z')) || (decide ('0' ≤ c) && decide (c ≤ '9'))

/-- `DataProcessor.generateCode`: upper-case, strip non-`[A-Z0-9]`,
keep the FIRST 20 characters, prefix with `SL-<TYPE>-`. -/
def generateCode (ty name : Str) : Str :=
  ("SL-").data ++ ty ++ ("-").data ++ ((name.map upperChar).filter isUpperAlnum).take 20

/-- Modelled from the spec (for comparison with `generateCode`): the
spec's stated code shape `SL-<TYPE>-<NORMALIZED-UPPERCASE-ALNUM>`
truncated to 50 characters. -/
def generateCodeSpec (ty name : Str) : Str :=
  ("SL-").data ++ ty ++ ("-").data ++ ((name.map upperChar).filter isUpperAlnum).take 50

/-- A sequence of `checkRateLimit` calls for one client at the given
times, with fixed `maxRequests`/`windowMs`, collecting the decisions. -/
def runChecks (cid : Str) (maxR w : Nat) (ts : List Nat) (m : RateMap) :
    List Bool × RateMap :=
  ts.foldl (fun acc t =>
    ((acc.1 ++ [(checkRateLimit cid acc.2 maxR w t).1],
      (checkRateLimit cid acc.2 maxR w t).2) : List Bool × RateMap)) ([], m)

/-- `n` consecutive `autocomplete` calls by one client (at time 0). -/
def iterAuto (cid : Str) : Nat → SSState → SSState
  | 0, st => st
  | n + 1, st => iterAuto cid n (autocomplete st (("te").data) cid 10 0).2

/-- `n` consecutive `search` calls by one client (at time 0). -/
def iterSearch (cid : Str) : Nat → SSState → SSState
  | 0, st => st
  | n + 1, st => iterSearch cid n (search st (("te").data) defaultSearchOptions cid 0).2

/-- The first literal piece of a pattern alternative, if any. -/
def firstLit : List Piece → Option Char
  | [] => none
  | .lit c :: _ => some c
  | .cls _ :: ps => firstLit ps
  | .star _ :: ps => firstLit ps
  | .wb :: ps => firstLit ps

/-- Check that an alternative's first literal is a non-whitespace char. -/
def altFirstLitNonWs (al : List Piece) : Bool :=
  match firstLit al with
  | some c => !(isJsWs c)
  | none => false

/-- Keys used by the same-timestamp counterexample (distinct, nonempty). -/
def aKey (i : Nat) : Str := List.replicate (i + 1) 'a'

/-- `n` inserts of distinct fresh keys, all at `Date.now() = 0` (i.e.
within one millisecond). -/
def sameTimeInserts (n : Nat) : List (COp Unit × Nat) :=
  (List.range n).map (fun i => (COp.cset (aKey i) (), 0))

/-- Invariant of reachable cache states: the value map and the
access-time map are keyed alike, keys are distinct and nonempty, and
every recorded access time is below `bound`. -/
def CacheInv {α : Type} (st : CacheSt α) (bound : Nat) : Prop :=
  st.cache.map Prod.fst = st.times.map Prod.fst ∧
  (st.times.map Prod.fst).Nodup ∧
  (∀ p ∈ st.times, p.2 < bound ∧ p.1 ≠ [])

/-- A burst of fresh-key inserts, one per millisecond starting at `t0`. -/
def insertsFrom {α : Type} (v : α) : Nat → List Str → List (COp α × Nat)
  | _, [] => []
  | t0, k :: ks => (COp.cset k v, t0) :: insertsFrom v (t0 + 1) ks

/-- The access-time stamps such a burst records. -/
def stampsFrom : Nat → List Str → List (Str × Nat)
  | _, [] => []
  | t0, k :: ks => (k, t0) :: stampsFrom (t0 + 1) ks

def wcache : CacheSt Unit :=
  ⟨(List.range 1000).map (fun i => (aKey i, ())),
   (List.range 1000).map (fun i => (aKey i, i))⟩

/-- The index holds, under `key`, an entry with the given name, type
and normalized form. -/
def hasTriple (idx : Index) (key nm : Str) (ty : LType) (nz : Str) : Prop :=
  ∃ e ∈ (lookupA idx key).getD [], e.name = nm ∧ e.type = ty ∧ e.normalized = nz

/-- The three-tier accumulator pipeline of `search` (the portion of the
body between sanitization and the final sort), named for reuse. -/
def searchTiers (idx : Index) (normalized : Str) (opts : SearchOptions) :
    List SearchResult × List Str :=
  let acc1 := exactTier ((lookupA idx normalized).getD []) opts.types
  let acc2 :=
    if acc1.1.length < opts.limit then
      partialTier idx normalized opts.types opts.minScore acc1
    else acc1
  if opts.fuzzy && qLt (qNat acc2.1.length) (qHalf opts.limit) then
    fuzzyTier idx normalized opts.types opts.minScore acc2
  else acc2

/-- The candidate scan of `autocomplete` (the fold over every index
key), named for reuse. -/
def acItems (idx : Index) (normalized : Str) : List ACItem × List Str :=
  idx.foldl (fun (acc : List ACItem × List Str) kv =>
    if containsSub normalized kv.1 || containsSub kv.1 normalized then
      kv.2.foldl (fun acc entry =>
        if !(decide (entry.name ∈ acc.2)) then
          let score := calculateSimilarity normalized entry.normalized
          if qLt qPoint3 score then
            (acc.1 ++ [⟨entry.name, score⟩], acc.2 ++ [entry.name])
          else acc
        else acc) acc
    else acc) ([], [])

/-! ### Character-level lemmas -/

theorem toNat_ofNat_of_valid {n : Nat} (h : n < 55296) : (Char.ofNat n).toNat = n := by
  have hv : n.isValidChar := Or.inl h
  rw [Char.ofNat, dif_pos hv]
  rfl

theorem char_le_iff_toNat {a b : Char} : a ≤ b ↔ a.toNat ≤ b.toNat := by
  rw [Char.le_def, UInt32.le_def, BitVec.le_def]
  exact Iff.rfl

theorem lowerChar_toNat_of_upper {c : Char} (h : 'A' ≤ c ∧ c ≤ 'Z') :
    (lowerChar c).toNat = c.toNat + 32 := by
  have h1 : c.toNat ≤ 90 := char_le_iff_toNat.1 h.2
  rw [lowerChar, if_pos h]
  exact toNat_ofNat_of_valid (by omega)

theorem lowerChar_fix {c : Char} (h : ¬('A' ≤ c ∧ c ≤ 'Z')) : lowerChar c = c := by
  rw [lowerChar, if_neg h]

theorem lowerChar_not_upper (c : Char) : ¬('A' ≤ lowerChar c ∧ lowerChar c ≤ 'Z') := by
  by_cases h : 'A' ≤ c ∧ c ≤ 'Z'
  · have h2 := lowerChar_toNat_of_upper h
    have h3 : (65 : Nat) ≤ c.toNat := char_le_iff_toNat.1 h.1
    intro hc
    have h4 := char_le_iff_toNat.1 hc.2
    have h5 : ('Z').toNat = 90 := by decide
    omega
  · rw [lowerChar_fix h]
    exact h

theorem lowerChar_idem (c : Char) : lowerChar (lowerChar c) = lowerChar c :=
  lowerChar_fix (lowerChar_not_upper c)

theorem not_upper_of_isJsWs {c : Char} (h : isJsWs c = true) : ¬('A' ≤ c ∧ c ≤ 'Z') := by
  intro hc
  have h1 : (65 : Nat) ≤ c.toNat := char_le_iff_toNat.1 hc.1
  rcases Bool.or_eq_true_iff.1 h with h2 | h2
  · rcases Bool.or_eq_true_iff.1 h2 with h3 | h3
    · rcases Bool.or_eq_true_iff.1 h3 with h4 | h4
      · rcases Bool.or_eq_true_iff.1 h4 with h5 | h5
        · rcases Bool.or_eq_true_iff.1 h5 with h6 | h6
          · have : c = ' ' := by exact eq_of_beq h6
            subst this; exact absurd h1 (by decide)
          · have : c = '\t' := eq_of_beq h6
            subst this; exact absurd h1 (by decide)
        · have : c = '\n' := eq_of_beq h5
          subst this; exact absurd h1 (by decide)
      · have : c = '\r' := eq_of_beq h4
        subst this; exact absurd h1 (by decide)
    · have : c = '\x0b' := eq_of_beq h3
      subst this; exact absurd h1 (by decide)
  · have : c = '\x0c' := eq_of_beq h2
    subst this; exact absurd h1 (by decide)

theorem lowerChar_fix_of_ws {c : Char} (h : isJsWs c = true) : lowerChar c = c :=
  lowerChar_fix (not_upper_of_isJsWs h)

theorem isWordChar_of_toNat {c : Char} (h : 97 ≤ c.toNat ∧ c.toNat ≤ 122) :
    isWordChar c = true := by
  have h1 : decide ('a' ≤ c) = true := by
    apply decide_eq_true
    exact char_le_iff_toNat.2 (by simpa using h.1)
  have h2 : decide (c ≤ 'z') = true := by
    apply decide_eq_true
    exact char_le_iff_toNat.2 (by simpa using h.2)
  simp [isWordChar, h1, h2]

theorem benignChar_lowerChar {c : Char} (h : benignChar c = true) :
    benignChar (lowerChar c) = true := by
  by_cases hu : 'A' ≤ c ∧ c ≤ 'Z'
  · have h1 : (65 : Nat) ≤ c.toNat := char_le_iff_toNat.1 hu.1
    have h2 : c.toNat ≤ 90 := char_le_iff_toNat.1 hu.2
    have h3 := lowerChar_toNat_of_upper hu
    have h4 : isWordChar (lowerChar c) = true := isWordChar_of_toNat (by omega)
    simp [benignChar, h4]
  · rw [lowerChar_fix hu]
    exact h

theorem benignChar_space : benignChar ' ' = true := by decide

/-! ### List-level lemmas about trim, collapse, strip -/

theorem mem_dropWhile {p : Char → Bool} {c : Char} :
    ∀ {l : Str}, c ∈ l.dropWhile p → c ∈ l := by
  intro l h
  induction l with
  | nil => simp [List.dropWhile] at h
  | cons d rest ih =>
    rw [List.dropWhile] at h
    by_cases hd : p d
    · simp [hd] at h
      exact List.mem_cons_of_mem d (ih h)
    · simpa [hd] using h

theorem mem_trim {c : Char} {l : Str} (h : c ∈ trim l) : c ∈ l := by
  rw [trim] at h
  rw [List.mem_reverse] at h
  have h1 := mem_dropWhile h
  rw [List.mem_reverse] at h1
  exact mem_dropWhile h1

theorem mem_collapseGo {c : Char} :
    ∀ {l : Str} {b : Bool}, c ∈ collapseGo b l → c = ' ' ∨ c ∈ l := by
  intro l
  induction l with
  | nil => intro b h; simp [collapseGo] at h
  | cons d rest ih =>
    intro b h
    by_cases hd : isJsWs d
    · cases b with
      | true =>
        rw [show collapseGo true (d :: rest) = collapseGo true rest by
              rw [collapseGo]; simp [hd]] at h
        rcases ih h with h1 | h1
        · exact Or.inl h1
        · exact Or.inr (List.mem_cons_of_mem d h1)
      | false =>
        rw [show collapseGo false (d :: rest) = ' ' :: collapseGo true rest by
              rw [collapseGo]; simp [hd]] at h
        rcases List.mem_cons.1 h with h1 | h1
        · exact Or.inl h1
        · rcases ih h1 with h2 | h2
          · exact Or.inl h2
          · exact Or.inr (List.mem_cons_of_mem d h2)
    · rw [show collapseGo b (d :: rest) = d :: collapseGo false rest by
            rw [collapseGo]; simp [hd]] at h
      rcases List.mem_cons.1 h with h1 | h1
      · exact Or.inr (h1 ▸ List.mem_cons_self d rest)
      · rcases ih h1 with h2 | h2
        · exact Or.inl h2
        · exact Or.inr (List.mem_cons_of_mem d h2)

theorem mem_collapseWs {c : Char} {l : Str} (h : c ∈ collapseWs l) : c = ' ' ∨ c ∈ l :=
  mem_collapseGo h

theorem map_eq_self_of_fix {f : Char → Char} :
    ∀ {l : Str}, (∀ c ∈ l, f c = c) → l.map f = l := by
  intro l h
  induction l with
  | nil => rfl
  | cons d rest ih =>
    simp only [List.map_cons]
    rw [h d (List.mem_cons_self d rest), ih (fun c hc => h c (List.mem_cons_of_mem d hc))]

theorem filter_eq_self_of {p : Char → Bool} :
    ∀ {l : Str}, (∀ c ∈ l, p c = true) → l.filter p = l := by
  intro l h
  exact List.filter_eq_self.2 h

/-- Every character of `normalize l` is either a space or a lower-cased
character of `l`. -/
theorem collapseGo_nil (b : Bool) : collapseGo b [] = [] := rfl

theorem collapseGo_cons_ws_t {d : Char} {rest : Str} (hd : isJsWs d = true) :
    collapseGo true (d :: rest) = collapseGo true rest := by
  rw [collapseGo]; simp [hd]

theorem collapseGo_cons_ws_f {d : Char} {rest : Str} (hd : isJsWs d = true) :
    collapseGo false (d :: rest) = ' ' :: collapseGo true rest := by
  rw [collapseGo]; simp [hd]

theorem collapseGo_cons_not_ws (b : Bool) {d : Char} {rest : Str} (hd : isJsWs d = false) :
    collapseGo b (d :: rest) = d :: collapseGo false rest := by
  rw [collapseGo]; simp [hd]

theorem collapseGo_idem : ∀ (l : Str) (b : Bool),
    collapseGo b (collapseGo b l) = collapseGo b l := by
  intro l
  induction l with
  | nil => intro b; rfl
  | cons d rest ih =>
    intro b
    by_cases hd : isJsWs d
    · cases b with
      | true => rw [collapseGo_cons_ws_t hd, ih true]
      | false =>
        rw [collapseGo_cons_ws_f hd, collapseGo_cons_ws_f (by decide)]
        rw [ih true]
    · rw [collapseGo_cons_not_ws b (by simpa using hd)]
      rw [collapseGo_cons_not_ws b (by simpa using hd), ih false]

theorem dropWhile_head_not {p : Char → Bool} :
    ∀ {l : Str} {c : Char}, (l.dropWhile p).head? = some c → p c = false := by
  intro l
  induction l with
  | nil => intro c h; simp [List.dropWhile] at h
  | cons d rest ih =>
    intro c h
    rw [List.dropWhile] at h
    by_cases hd : p d
    · simp only [hd, if_true] at h
      exact ih h
    · simp only [hd, if_false, List.head?_cons, Option.some.injEq] at h
      rw [← h]
      exact Bool.eq_false_iff.2 hd

theorem getLast?_cons_ne {x : Char} {M : Str} (h : M ≠ []) :
    (x :: M).getLast? = M.getLast? := by
  cases M with
  | nil => exact absurd rfl h
  | cons m M' => exact List.getLast?_cons_cons

theorem dropWhile_getLast_ne_nil {p : Char → Bool} :
    ∀ {l : Str}, l.dropWhile p ≠ [] → (l.dropWhile p).getLast? = l.getLast? := by
  intro l
  induction l with
  | nil => intro h; simp [List.dropWhile] at h
  | cons d rest ih =>
    intro h
    rw [List.dropWhile] at h ⊢
    by_cases hd : p d
    · simp only [hd, if_true] at h ⊢
      have hrest : rest ≠ [] := by
        intro he
        rw [he] at h
        simp [List.dropWhile] at h
      rw [ih h, getLast?_cons_ne hrest]
    · simp [hd]

theorem dropWhile_eq_self_of_head {p : Char → Bool} {l : Str}
    (h : ∀ c, l.head? = some c → p c = false) : l.dropWhile p = l := by
  cases l with
  | nil => rfl
  | cons d rest =>
    rw [List.dropWhile]
    have := h d rfl
    simp [this]

theorem trim_eq_self_of {l : Str}
    (h1 : ∀ c, l.head? = some c → isJsWs c = false)
    (h2 : ∀ c, l.getLast? = some c → isJsWs c = false) : trim l = l := by
  rw [trim, dropWhile_eq_self_of_head h1]
  rw [dropWhile_eq_self_of_head (fun c hc => h2 c (by rwa [List.head?_reverse] at hc))]
  exact List.reverse_reverse l

theorem trim_head_not {x : Str} {c : Char} (h : (trim x).head? = some c) :
    isJsWs c = false := by
  rw [trim, List.head?_reverse] at h
  have hne : (((x.dropWhile isJsWs).reverse).dropWhile isJsWs) ≠ [] := by
    intro he
    rw [he] at h
    simp at h
  rw [dropWhile_getLast_ne_nil hne, List.getLast?_reverse] at h
  exact dropWhile_head_not h

theorem trim_getLast_not {x : Str} {c : Char} (h : (trim x).getLast? = some c) :
    isJsWs c = false := by
  rw [trim, List.getLast?_reverse] at h
  exact dropWhile_head_not h

theorem collapse_head_not {l : Str}
    (h : ∀ c, l.head? = some c → isJsWs c = false) :
    ∀ c, (collapseWs l).head? = some c → isJsWs c = false := by
  intro c hc
  cases l with
  | nil => simp [collapseWs, collapseGo_nil] at hc
  | cons d rest =>
    have hd := h d rfl
    rw [collapseWs, collapseGo_cons_not_ws false hd] at hc
    simp only [List.head?_cons, Option.some.injEq] at hc
    rw [← hc]
    exact hd

theorem collapseGo_getLast :
    ∀ {l : Str} (b : Bool) {c : Char}, l.getLast? = some c → isJsWs c = false →
      (collapseGo b l).getLast? = some c := by
  intro l
  induction l with
  | nil => intro b c h _; simp at h
  | cons d rest ih =>
    intro b c h hc
    cases rest with
    | nil =>
      simp only [List.getLast?_singleton, Option.some.injEq] at h
      subst h
      rw [collapseGo_cons_not_ws b hc]
      rfl
    | cons e rest' =>
      rw [List.getLast?_cons_cons] at h
      have hne : e :: rest' ≠ [] := by simp
      by_cases hd : isJsWs d
      · cases b with
        | true => rw [collapseGo_cons_ws_t hd]; exact ih true h hc
        | false =>
          rw [collapseGo_cons_ws_f hd]
          have h1 := ih true h hc
          have h2 : collapseGo true (e :: rest') ≠ [] := by
            intro he
            rw [he] at h1
            simp at h1
          rw [getLast?_cons_ne h2]
          exact h1
      · rw [collapseGo_cons_not_ws b (by simpa using hd)]
        have h1 := ih false h hc
        have h2 : collapseGo false (e :: rest') ≠ [] := by
          intro he
          rw [he] at h1
          simp at h1
        rw [getLast?_cons_ne h2]
        exact h1

/-- `collapseWs ∘ trim` produces a string with no edge whitespace. -/
theorem trim_collapse_trim (x : Str) :
    trim (collapseWs (trim x)) = collapseWs (trim x) := by
  apply trim_eq_self_of
  · exact collapse_head_not (fun c hc => trim_head_not hc)
  · intro c hc
    cases hl : (trim x).getLast? with
    | none =>
      have : trim x = [] := by
        cases h : trim x with
        | nil => rfl
        | cons a as => rw [h] at hl; simp [List.getLast?] at hl
      rw [this] at hc
      simp [collapseWs, collapseGo_nil] at hc
    | some c' =>
      have h1 := trim_getLast_not hl
      have h2 := collapseGo_getLast false hl h1
      rw [collapseWs] at hc
      rw [h2] at hc
      cases hc
      exact h1

theorem mem_normalize {c : Char} {l : Str} (h : c ∈ normalize l) :
    c = ' ' ∨ ∃ d ∈ l, c = lowerChar d := by
  rw [normalize, stripNonWord] at h
  have h1 := (List.mem_filter.1 h).1
  rcases mem_collapseWs h1 with h2 | h2
  · exact Or.inl h2
  · rcases List.mem_map.1 (mem_trim h2) with ⟨d, hd, hdc⟩
    exact Or.inr ⟨d, hd, hdc.symm⟩

/-! ### Claim C5: idempotence of `normalize` -/

/-- C5 counterexample: `normalize` is NOT idempotent.  On `"a . b"` the
first pass collapses whitespace BEFORE stripping the dot, leaving the
double space `"a  b"`; the second pass collapses it to `"a b"`. -/
theorem normalize_not_idempotent_cex :
    normalize (normalize ("a . b".data)) ≠ normalize ("a . b".data) := by decide

/-- C5 amended: `normalize` is idempotent on strings whose characters all
lie in the kept class `[\w\s-]` (no character is stripped, so no new
whitespace runs can be exposed); on general strings a second application
can differ, as the counterexample shows. -/
theorem normalize_idem_on_clean (s : Str) (hb : ∀ c ∈ s, benignChar c = true) :
    normalize (normalize s) = normalize s := by
  have hux : ∀ c ∈ collapseWs (trim (s.map lowerChar)), benignChar c = true := by
    intro c hc
    rcases mem_collapseWs hc with h | h
    · exact h ▸ benignChar_space
    · rcases List.mem_map.1 (mem_trim h) with ⟨d, hd, rfl⟩
      exact benignChar_lowerChar (hb d hd)
  have hstrip : stripNonWord (collapseWs (trim (s.map lowerChar))) =
      collapseWs (trim (s.map lowerChar)) := by
    rw [stripNonWord]
    exact filter_eq_self_of hux
  have ht : normalize s = collapseWs (trim (s.map lowerChar)) := by
    rw [normalize, hstrip]
  rw [ht]
  have hlfix : ∀ c ∈ collapseWs (trim (s.map lowerChar)), lowerChar c = c := by
    intro c hc
    rcases mem_collapseWs hc with h | h
    · rw [h]; decide
    · rcases List.mem_map.1 (mem_trim h) with ⟨d, _, rfl⟩
      exact lowerChar_idem d
  rw [normalize, map_eq_self_of_fix hlfix, trim_collapse_trim]
  show stripNonWord (collapseGo false (collapseGo false (trim (s.map lowerChar)))) = _
  rw [collapseGo_idem]
  exact hstrip

/-- C5 witness: the amended idempotence at a concrete clean string. -/
theorem normalize_idem_on_clean_witness :
    (∀ c ∈ (" Ab  -c_9 ".data), benignChar c = true) ∧
      normalize (normalize (" Ab  -c_9 ".data)) = normalize (" Ab  -c_9 ".data) :=
  ⟨by decide, normalize_idem_on_clean (" Ab  -c_9 ".data) (by decide)⟩

/-! ### Association-list lemmas (JS `Map` semantics) -/

theorem lookupA_setA {β : Type} (m : List (Str × β)) (k : Str) (v : β) :
    lookupA (setA m k v) k = some v := by
  induction m with
  | nil => simp [setA, lookupA]
  | cons p rest ih =>
    by_cases h : p.1 = k
    · simp [setA, h, lookupA]
    · cases p
      simp_all [setA, h, lookupA]

theorem lookupA_setA_ne {β : Type} (m : List (Str × β)) {k k' : Str} (v : β)
    (h : k' ≠ k) : lookupA (setA m k v) k' = lookupA m k' := by
  induction m with
  | nil => simp [setA, lookupA, Ne.symm h]
  | cons p rest ih =>
    by_cases hp : p.1 = k
    · cases p
      simp_all [setA, lookupA, Ne.symm h]
    · cases p
      simp_all [setA, lookupA, hp]

theorem setA_setA {β : Type} (m : List (Str × β)) (k : Str) (v v' : β) :
    setA (setA m k v) k v' = setA m k v' := by
  induction m with
  | nil => simp [setA]
  | cons p rest ih =>
    by_cases h : p.1 = k
    · cases p
      simp_all [setA]
    · cases p
      simp_all [setA, h]

theorem setA_self {β : Type} :
    ∀ {m : List (Str × β)} {k : Str} {v : β}, lookupA m k = some v → setA m k v = m := by
  intro m
  induction m with
  | nil => intro k v h; simp [lookupA] at h
  | cons p rest ih =>
    intro k v h
    by_cases hp : p.1 = k
    · cases p
      simp_all [setA, lookupA]
    · cases p
      rw [lookupA] at h
      simp only [hp, if_false] at h
      simp [setA, hp, ih h]

/-! ### Claim C2: exact admission counts of the rate limiter -/

theorem foldlRC_acc (cid : Str) (maxR w : Nat) :
    ∀ (ts : List Nat) (outs : List Bool) (m : RateMap),
      ts.foldl (fun acc t =>
        ((acc.1 ++ [(checkRateLimit cid acc.2 maxR w t).1],
          (checkRateLimit cid acc.2 maxR w t).2) : List Bool × RateMap)) (outs, m) =
      (outs ++ (ts.foldl (fun acc t =>
        ((acc.1 ++ [(checkRateLimit cid acc.2 maxR w t).1],
          (checkRateLimit cid acc.2 maxR w t).2) : List Bool × RateMap)) ([], m)).1,
       (ts.foldl (fun acc t =>
        ((acc.1 ++ [(checkRateLimit cid acc.2 maxR w t).1],
          (checkRateLimit cid acc.2 maxR w t).2) : List Bool × RateMap)) ([], m)).2) := by
  intro ts
  induction ts with
  | nil => intro outs m; simp
  | cons t ts ih =>
    intro outs m
    simp only [List.foldl_cons]
    rw [ih (outs ++ [(checkRateLimit cid m maxR w t).1]) ((checkRateLimit cid m maxR w t).2)]
    rw [ih ([] ++ [(checkRateLimit cid m maxR w t).1]) ((checkRateLimit cid m maxR w t).2)]
    simp

theorem runChecks_cons (cid : Str) (maxR w t : Nat) (ts : List Nat) (m : RateMap) :
    runChecks cid maxR w (t :: ts) m =
      ((checkRateLimit cid m maxR w t).1 ::
         (runChecks cid maxR w ts (checkRateLimit cid m maxR w t).2).1,
       (runChecks cid maxR w ts (checkRateLimit cid m maxR w t).2).2) := by
  simp only [runChecks, List.foldl_cons]
  rw [foldlRC_acc cid maxR w ts ([] ++ [(checkRateLimit cid m maxR w t).1])
    ((checkRateLimit cid m maxR w t).2)]
  simp

theorem runChecks_snoc (cid : Str) (maxR w t : Nat) (ts : List Nat) (m : RateMap) :
    runChecks cid maxR w (ts ++ [t]) m =
      ((runChecks cid maxR w ts m).1 ++
         [(checkRateLimit cid (runChecks cid maxR w ts m).2 maxR w t).1],
       (checkRateLimit cid (runChecks cid maxR w ts m).2 maxR w t).2) := by
  simp only [runChecks, List.foldl_append, List.foldl_cons, List.foldl_nil]

/-- While the client's stored window plus the remaining calls fit under
`maxRequests`, every call is allowed and the timestamps accumulate. -/
theorem runChecks_allowed (cid : Str) (N w : Nat) :
    ∀ (ts P : List Nat) (m : RateMap),
      lookupA m cid = some P →
      (∀ a ∈ P ++ ts, ∀ b ∈ P ++ ts, a - b < w) →
      P.length + ts.length ≤ N →
      runChecks cid N w ts m = (List.replicate ts.length true, setA m cid (P ++ ts)) := by
  intro ts
  induction ts with
  | nil =>
    intro P m hP _ _
    simp [runChecks, setA_self hP]
  | cons t ts ih =>
    intro P m hP hwin hlen
    rw [runChecks_cons]
    have hfil : P.filter (fun p => decide (t - p < w)) = P := by
      apply List.filter_eq_self.2
      intro p hp
      exact decide_eq_true (hwin t (by simp) p (by simp [hp]))
    have hPlt : P.length < N := by
      simp only [List.length_cons] at hlen
      omega
    have hstep : checkRateLimit cid m N w t = (true, setA m cid (P ++ [t])) := by
      rw [checkRateLimit, hP]
      simp only [hfil]
      rw [if_neg (by omega)]
    rw [hstep]
    have hwin' : ∀ a ∈ (P ++ [t]) ++ ts, ∀ b ∈ (P ++ [t]) ++ ts, a - b < w := by
      intro a ha b hb
      rw [List.append_assoc] at ha hb
      exact hwin a ha b hb
    have hlen' : (P ++ [t]).length + ts.length ≤ N := by
      simp only [List.length_append, List.length_cons, List.length_nil] at hlen ⊢
      omega
    rw [ih (P ++ [t]) (setA m cid (P ++ [t])) (lookupA_setA m cid (P ++ [t])) hwin' hlen']
    rw [setA_setA, List.append_assoc]
    simp [List.replicate_succ]

/-- C2 counterexample: with `maxRequests = 0` a fresh client's first
check must be denied by the claim (exactly the first `N = 0` checks are
allowed, so check 1 is the denied `(N+1)`-th), but the fresh-client
path of `checkRateLimit` records the timestamp and returns allowed
without consulting `maxRequests`. -/
theorem rateLimit_fresh_zero_cex :
    (checkRateLimit ("c".data) [] 0 60000 0).1 = true := by decide

/-- C2 amended (claim restricted to `N ≥ 1`): starting from a fresh
client, given `N + 1` call times that all lie within one window of each
other, exactly the first `N` checks are allowed and the `(N+1)`-th is
denied (and does not consume a slot); any later check made at least
`windowMs` after every recorded time is allowed again. -/
theorem rateLimit_exact_window (cid : Str) (N w : Nat) (ts : List Nat) (tLast : Nat)
    (m : RateMap)
    (hfresh : lookupA m cid = none)
    (hN : 1 ≤ N)
    (hlen : ts.length = N)
    (hwin : ∀ a ∈ ts ++ [tLast], ∀ b ∈ ts ++ [tLast], a - b < w) :
    (runChecks cid N w (ts ++ [tLast]) m).1 = List.replicate N true ++ [false]
    ∧ (runChecks cid N w (ts ++ [tLast]) m).2 = setA m cid ts
    ∧ ∀ T, (∀ t ∈ ts, t + w ≤ T) →
        (checkRateLimit cid (setA m cid ts) N w T).1 = true := by
  cases ts with
  | nil => simp at hlen; omega
  | cons t1 rest =>
    have hrlen : rest.length + 1 = N := by simpa using hlen
    have hstep1 : checkRateLimit cid m N w t1 = (true, setA m cid [t1]) := by
      rw [checkRateLimit, hfresh]
    have hwin1 : ∀ a ∈ [t1] ++ rest, ∀ b ∈ [t1] ++ rest, a - b < w := by
      intro a ha b hb
      apply hwin
      · simp only [List.cons_append, List.mem_cons, List.mem_append] at ha ⊢
        tauto
      · simp only [List.cons_append, List.mem_cons, List.mem_append] at hb ⊢
        tauto
    have hphase := runChecks_allowed cid N w rest [t1] (setA m cid [t1])
      (lookupA_setA m cid [t1]) hwin1 (by simp; omega)
    have hfirst : runChecks cid N w (t1 :: rest) m =
        (true :: List.replicate rest.length true, setA m cid (t1 :: rest)) := by
      rw [runChecks_cons, hstep1]
      simp only [hphase, setA_setA]
      rfl
    have hfil2 : (t1 :: rest).filter (fun p => decide (tLast - p < w)) = t1 :: rest := by
      apply List.filter_eq_self.2
      intro p hp
      apply decide_eq_true
      apply hwin tLast (by simp) p
      simp only [List.cons_append, List.mem_cons, List.mem_append] at hp ⊢
      tauto
    have hstepL : checkRateLimit cid (setA m cid (t1 :: rest)) N w tLast =
        (false, setA m cid (t1 :: rest)) := by
      rw [checkRateLimit, lookupA_setA]
      simp only [hfil2]
      rw [if_pos (by simp; omega)]
    have hrun : runChecks cid N w ((t1 :: rest) ++ [tLast]) m =
        ((true :: List.replicate rest.length true) ++ [false], setA m cid (t1 :: rest)) := by
      rw [runChecks_snoc, hfirst, hstepL]
    have houts : (true :: List.replicate rest.length true) ++ [false] =
        List.replicate N true ++ [false] := by
      rw [show true :: List.replicate rest.length true =
        List.replicate (rest.length + 1) true from rfl, hrlen]
    refine ⟨by rw [hrun, houts], by rw [hrun], ?_⟩
    intro T hT
    rw [checkRateLimit, lookupA_setA]
    have hfilT : (t1 :: rest).filter (fun p => decide (T - p < w)) = [] := by
      rw [List.filter_eq_nil_iff]
      intro p hp
      have := hT p hp
      simp only [decide_eq_true_eq]
      omega
    simp only [hfilT]
    rw [if_neg (by simp; omega)]

/-- C2 witness: `N = 1`, window 5, calls at times 3 and 4 (allowed then
denied), recheck at time 9 allowed again. -/
theorem rateLimit_exact_window_witness :
    (runChecks ("c".data) 1 5 ([3] ++ [4]) []).1 = List.replicate 1 true ++ [false] ∧
      (checkRateLimit ("c".data) (setA [] ("c".data) [3]) 1 5 9).1 = true := by
  have h := rateLimit_exact_window ("c".data) 1 5 [3] 4 [] (by decide) (by decide)
    (by decide) (by decide)
  exact ⟨h.1, h.2.2 9 (by decide)⟩

/-! ### Claim C3: the autocomplete and search rate limiters share state -/

set_option maxRecDepth 100000 in
/-- C3 counterexample: the two entry points share `this.rateLimit`.
Run A: 20 autocomplete calls, 10 search calls, 20 autocomplete calls —
the next autocomplete is DENIED (50 shared stamps).  Run B is identical
except the 10 search calls are removed — the next autocomplete is
ALLOWED.  So search calls change a subsequent autocomplete admission
decision for the same client inside one window. -/
theorem rateLimit_shared_state_cex :
    (autocomplete
        (iterAuto (("c").data) 20 (iterSearch (("c").data) 10
          (iterAuto (("c").data) 20 (⟨[], []⟩ : SSState))))
        (("te").data) (("c").data) 10 0).1 = .error .rateLimited ∧
    (autocomplete (iterAuto (("c").data) 40 (⟨[], []⟩ : SSState))
        (("te").data) (("c").data) 10 0).1 = .ok [] := by decide

/-- C3 amended: `autocomplete` and `search` consult and mutate one
shared per-client timestamp store (`SearchService.rateLimit`); only the
`maxRequests` argument differs (50 vs 30).  With `k` the client's
in-window count, autocomplete admits iff `k < 50`, search iff `k < 30`,
and when both would admit they perform the identical state update —
so admitted calls of either kind count against both limits. -/
theorem rateLimit_shared_state (st : SSState) (cid : Str) (now : Nat) (k : Nat)
    (hk : k = (((lookupA st.rateLimit cid).getD []).filter
      (fun t => decide (now - t < 60000))).length) :
    (checkRateLimit cid st.rateLimit 50 60000 now).1 = decide (k < 50)
    ∧ (checkRateLimit cid st.rateLimit 30 60000 now).1 = decide (k < 30)
    ∧ (k < 30 → (checkRateLimit cid st.rateLimit 50 60000 now).2 =
        (checkRateLimit cid st.rateLimit 30 60000 now).2)
    ∧ (∀ q opts, (search st q opts cid now).2.rateLimit =
        (checkRateLimit cid st.rateLimit 30 60000 now).2)
    ∧ (∀ q lim, (autocomplete st q cid lim now).2.rateLimit =
        (checkRateLimit cid st.rateLimit 50 60000 now).2) := by
  refine ⟨?_, ?_, ?_, ?_, ?_⟩
  · cases hl : lookupA st.rateLimit cid with
    | none =>
      simp only [hl, Option.getD_none, List.filter_nil, List.length_nil] at hk
      subst hk
      simp [checkRateLimit, hl]
    | some ts =>
      simp only [hl, Option.getD_some] at hk
      subst hk
      simp only [checkRateLimit, hl]
      by_cases hc : 50 ≤ (ts.filter (fun t => decide (now - t < 60000))).length
      · have hd : ¬ ((ts.filter (fun t => decide (now - t < 60000))).length < 50) := by omega
        simp [hc, hd]
      · have hd : (ts.filter (fun t => decide (now - t < 60000))).length < 50 := by omega
        simp [hc, hd]
  · cases hl : lookupA st.rateLimit cid with
    | none =>
      simp only [hl, Option.getD_none, List.filter_nil, List.length_nil] at hk
      subst hk
      simp [checkRateLimit, hl]
    | some ts =>
      simp only [hl, Option.getD_some] at hk
      subst hk
      simp only [checkRateLimit, hl]
      by_cases hc : 30 ≤ (ts.filter (fun t => decide (now - t < 60000))).length
      · have hd : ¬ ((ts.filter (fun t => decide (now - t < 60000))).length < 30) := by omega
        simp [hc, hd]
      · have hd : (ts.filter (fun t => decide (now - t < 60000))).length < 30 := by omega
        simp [hc, hd]
  · intro h30
    cases hl : lookupA st.rateLimit cid with
    | none => simp [checkRateLimit, hl]
    | some ts =>
      simp only [hl, Option.getD_some] at hk
      simp only [checkRateLimit, hl]
      rw [if_neg (by omega), if_neg (by omega)]
  · intro q opts
    rw [search]
    (repeat' split) <;> rfl
  · intro q lim
    rw [autocomplete]
    (repeat' split) <;> rfl

/-- C3 witness: a client with two in-window stamps — both limiters read
the same count, and the 30-limit update equals the 50-limit update. -/
theorem rateLimit_shared_state_witness :
    (checkRateLimit (("c").data) ([((("c").data), [0, 0])]) 50 60000 5).1 =
      decide (2 < 50) ∧
    (checkRateLimit (("c").data) ([((("c").data), [0, 0])]) 50 60000 5).2 =
      (checkRateLimit (("c").data) ([((("c").data), [0, 0])]) 30 60000 5).2 := by
  have h := rateLimit_shared_state ⟨[], [((("c").data), [0, 0])]⟩ (("c").data) 5 2 (by decide)
  exact ⟨h.1, h.2.2.1 (by decide)⟩

/-! ### Claim C6: autocomplete on sub-2-character queries -/

/-- C6 counterexample: for the raw query `"a;"` the sanitized query is
`"a"` (one character), yet `autocomplete` silently returns the empty
list instead of failing with a ValidationError. -/
theorem autocomplete_sanitized_short_cex :
    (autocomplete (⟨[], []⟩ : SSState) (("a;").data) (("c").data) 10 0).1 = .ok [] ∧
    sanitizeSearchQuery (("a;").data) = .ok (("a").data) ∧
    (("a").data).length < 2 := by decide

/-- C6 amended: the under-2-characters ValidationError is raised on the
RAW query (inside `sanitizeSearchQuery`), before sanitization; when the
raw query passes but its SANITIZED form has fewer than 2 characters,
`autocomplete` silently returns the empty list, not an error. -/
theorem autocomplete_short_query_behavior :
    (∀ (st : SSState) (q cid : Str) (lim now : Nat) (s : Str),
      (checkRateLimit cid st.rateLimit 50 60000 now).1 = true →
      sanitizeSearchQuery q = .ok s → s.length < 2 →
      (autocomplete st q cid lim now).1 = .ok [])
    ∧ (∀ (st : SSState) (q cid : Str) (lim now : Nat),
      (checkRateLimit cid st.rateLimit 50 60000 now).1 = true →
      q ≠ [] → q.length < 2 →
      (autocomplete st q cid lim now).1 = .error .tooShort) := by
  constructor
  · intro st q cid lim now s hrate hsan hlen
    rw [autocomplete, hrate]
    simp only [Bool.not_true, Bool.false_eq_true, if_false, hsan]
    rw [if_pos (Or.inr hlen)]
  · intro st q cid lim now hrate hq hlen
    have hsan : sanitizeSearchQuery q = .error .tooShort := by
      rw [sanitizeSearchQuery, if_neg hq, if_neg (by omega), if_pos hlen]
    rw [autocomplete, hrate]
    simp only [Bool.not_true, Bool.false_eq_true, if_false, hsan]

/-! ### Claim C8: generated location codes -/

/-- C8 counterexample: the claimed code shape fails twice.  The
hierarchy builder's `generateCode` truncates the name part to 20
characters, not 50 (left conjunct, name of 25 `A`s).  Search results'
codes interpolate `normalize(entry.name)` — lower-case, whitespace and
hyphens retained, untruncated — not the upper-case-alphanumeric form
(right conjunct: `SL-TOWN-bo` vs `SL-TOWN-BO`). -/
theorem generateCode_spec_shape_cex :
    generateCode (("TOWN").data) (List.replicate 25 'A') ≠
      generateCodeSpec (("TOWN").data) (List.replicate 25 'A') ∧
    (createSearchResult
        ⟨("Bo").data, .town, normalize (("Bo").data), ⟨[], [], [], [], [], []⟩, false⟩
        qOne).code ≠
      generateCodeSpec (upperStr (ltypeStr .town)) (("Bo").data) := by decide

/-- C8 amended: every code is derived deterministically.  The
data-processor hierarchy builder generates
`SL-<TYPE>-<name upper-cased, non-alphanumerics removed, truncated to
20 characters>`; search results instead carry
`SL-<TYPE uppercased>-<normalize(name)>` (lower-case, spaces/hyphens
kept, untruncated).  Identical (type, name) pairs always yield
identical codes in both of them. -/
theorem code_generation_shape :
    (∀ ty name, generateCode ty name =
        ("SL-").data ++ ty ++ ("-").data ++ ((upperStr name).filter isUpperAlnum).take 20
      ∧ (((upperStr name).filter isUpperAlnum).take 20).length ≤ 20
      ∧ ∀ c ∈ ((upperStr name).filter isUpperAlnum).take 20, isUpperAlnum c = true)
    ∧ (∀ e sc, (createSearchResult e sc).code =
        ("SL-").data ++ upperStr (ltypeStr e.type) ++ ("-").data ++ normalize e.name)
    ∧ (∀ e1 e2 s1 s2, e1.name = e2.name → e1.type = e2.type →
        (createSearchResult e1 s1).code = (createSearchResult e2 s2).code) := by
  refine ⟨fun ty name => ⟨rfl, ?_, ?_⟩, fun e sc => rfl, fun e1 e2 s1 s2 hn ht => ?_⟩
  · rw [List.length_take]
    exact min_le_left _ _
  · intro c hc
    exact (List.mem_filter.1 (List.take_subset 20 _ hc)).2
  · show ("SL-").data ++ upperStr (ltypeStr e1.type) ++ ("-").data ++ normalize e1.name =
      ("SL-").data ++ upperStr (ltypeStr e2.type) ++ ("-").data ++ normalize e2.name
    rw [hn, ht]

/-- C8 witness: the determinism clause at two concrete entries that
differ in every field except name and type. -/
theorem code_generation_shape_witness :
    (("X").data = ("X").data) ∧
      (createSearchResult ⟨("X").data, .town, ("x").data,
          ⟨("R").data, [], [], [], [], ("X").data⟩, false⟩ qOne).code =
        (createSearchResult ⟨("X").data, .town, [], ⟨[], [], [], [], [], []⟩, true⟩
          qPoint8).code :=
  ⟨rfl, code_generation_shape.2.2
    ⟨("X").data, .town, ("x").data, ⟨("R").data, [], [], [], [], ("X").data⟩, false⟩
    ⟨("X").data, .town, [], ⟨[], [], [], [], [], []⟩, true⟩ qOne qPoint8 rfl rfl⟩

/-- C6 witness: the amended behavior at the concrete queries `"a;"`
(sanitizes to one character, silent empty) and `"a"` (raw length 1,
ValidationError). -/
theorem autocomplete_short_query_behavior_witness :
    (autocomplete (⟨[], [(("c").data, [50])]⟩ : SSState) (("a;").data)
      (("c").data) 10 99999).1 = .ok [] ∧
    (autocomplete (⟨[], [(("c").data, [50])]⟩ : SSState) (("a").data)
      (("c").data) 10 99999).1 = .error .tooShort :=
  ⟨autocomplete_short_query_behavior.1 ⟨[], [(("c").data, [50])]⟩ (("a;").data)
      (("c").data) 10 99999 (("a").data) (by decide) (by decide) (by decide),
   autocomplete_short_query_behavior.2 ⟨[], [(("c").data, [50])]⟩ (("a").data)
      (("c").data) 10 99999 (by decide) (by decide) (by decide)⟩

/-! ### Claim C7: whitespace-only queries to `search` -/

theorem firstLit_mem : ∀ {al : List Piece} {c : Char}, firstLit al = some c →
    Piece.lit c ∈ al := by
  intro al
  induction al with
  | nil => intro c h; simp [firstLit] at h
  | cons p ps ih =>
    intro c h
    cases p with
    | lit c' =>
      rw [firstLit] at h
      cases h
      exact List.mem_cons_self _ _
    | cls g => rw [firstLit] at h; exact List.mem_cons_of_mem _ (ih h)
    | star g => rw [firstLit] at h; exact List.mem_cons_of_mem _ (ih h)
    | wb => rw [firstLit] at h; exact List.mem_cons_of_mem _ (ih h)

/-- If a piece sequence containing the literal `c` matches a prefix of
`l`, then some character of `l` lower-cases to `c`. -/
theorem matchPieces_lit_mem : ∀ (fuel : Nat) (ps : List Piece) (l : Str)
    (prev : Option Char) (c : Char), Piece.lit c ∈ ps →
    matchPieces fuel ps l prev = true → ∃ d ∈ l, lowerChar d = c := by
  intro fuel
  induction fuel with
  | zero => intro ps l prev c _ h; simp [matchPieces] at h
  | succ f ih =>
    intro ps l prev c hmem h
    cases ps with
    | nil => simp at hmem
    | cons p ps' =>
      cases p with
      | wb =>
        cases l with
        | nil =>
          rw [matchPieces, Bool.and_eq_true] at h
          rcases List.mem_cons.1 hmem with he | hm
          · exact absurd he (by intro hx; cases hx)
          · exact ih ps' [] prev c hm h.2
        | cons d l' =>
          rw [matchPieces, Bool.and_eq_true] at h
          rcases List.mem_cons.1 hmem with he | hm
          · exact absurd he (by intro hx; cases hx)
          · exact ih ps' (d :: l') prev c hm h.2
      | lit c' =>
        cases l with
        | nil => rw [matchPieces] at h; cases h
        | cons d l' =>
          rw [matchPieces, Bool.and_eq_true] at h
          rcases List.mem_cons.1 hmem with he | hm
          · cases he
            exact ⟨d, List.mem_cons_self d l', eq_of_beq h.1⟩
          · rcases ih ps' l' (some d) c hm h.2 with ⟨e, he1, he2⟩
            exact ⟨e, List.mem_cons_of_mem d he1, he2⟩
      | cls g =>
        cases l with
        | nil => rw [matchPieces] at h; cases h
        | cons d l' =>
          rw [matchPieces, Bool.and_eq_true] at h
          rcases List.mem_cons.1 hmem with he | hm
          · exact absurd he (by intro hx; cases hx)
          · rcases ih ps' l' (some d) c hm h.2 with ⟨e, he1, he2⟩
            exact ⟨e, List.mem_cons_of_mem d he1, he2⟩
      | star g =>
        cases l with
        | nil =>
          rw [matchPieces] at h
          rcases List.mem_cons.1 hmem with he | hm
          · exact absurd he (by intro hx; cases hx)
          · exact ih ps' [] prev c hm h
        | cons d l' =>
          rw [matchPieces] at h
          rcases Bool.or_eq_true_iff.1 h with h1 | h1
          · rcases List.mem_cons.1 hmem with he | hm
            · exact absurd he (by intro hx; cases hx)
            · exact ih ps' (d :: l') prev c hm h1
          · rw [Bool.and_eq_true] at h1
            rcases ih (.star g :: ps') l' (some d) c hmem h1.2 with ⟨e, he1, he2⟩
            exact ⟨e, List.mem_cons_of_mem d he1, he2⟩

theorem scanMatch_lit_mem {ps : List Piece} {c : Char} (hmem : Piece.lit c ∈ ps) :
    ∀ (l : Str) (prev : Option Char), scanMatch ps l prev = true →
      ∃ d ∈ l, lowerChar d = c := by
  intro l
  induction l with
  | nil =>
    intro prev h
    rw [scanMatch] at h
    simp only [Bool.or_false] at h
    exact matchPieces_lit_mem _ ps [] prev c hmem h
  | cons d l' ih =>
    intro prev h
    rw [scanMatch] at h
    rcases Bool.or_eq_true_iff.1 h with h1 | h1
    · exact matchPieces_lit_mem _ ps (d :: l') prev c hmem h1
    · rcases ih (some d) h1 with ⟨e, he1, he2⟩
      exact ⟨e, List.mem_cons_of_mem d he1, he2⟩

/-- A pattern all of whose alternatives demand some non-whitespace
literal cannot match a whitespace-only string. -/
theorem testPattern_ws_false {alts : List (List Piece)} {s : Str}
    (hl : ∀ al ∈ alts, ∃ c, Piece.lit c ∈ al ∧ isJsWs c = false)
    (hws : ∀ d ∈ s, isJsWs d = true) : testPattern alts s = false := by
  rw [testPattern]
  by_contra hne
  have h := Bool.of_not_eq_false hne
  rcases List.any_eq_true.1 h with ⟨al, hal, hm⟩
  rcases hl al hal with ⟨c, hcm, hcw⟩
  rcases scanMatch_lit_mem hcm s none hm with ⟨d, hd, hlow⟩
  have hdw := hws d hd
  rw [lowerChar_fix_of_ws hdw] at hlow
  rw [hlow] at hdw
  rw [hdw] at hcw
  cases hcw

/-- Every alternative of every threat pattern starts with a
non-whitespace literal (checked by evaluation). -/
theorem allPatterns_firstLit :
    ((sqlInjectionPatterns ++ blockedPatterns).all
      (fun pat => pat.all altFirstLitNonWs)) = true := by decide

theorem allPatterns_have_lit :
    ∀ pat ∈ sqlInjectionPatterns ++ blockedPatterns, ∀ al ∈ pat,
      ∃ c, Piece.lit c ∈ al ∧ isJsWs c = false := by
  intro pat hpat al hal
  have h1 := List.all_eq_true.1 allPatterns_firstLit pat hpat
  have h2 := List.all_eq_true.1 h1 al hal
  rw [altFirstLitNonWs] at h2
  cases hfl : firstLit al with
  | none => rw [hfl] at h2; cases h2
  | some c =>
    rw [hfl] at h2
    exact ⟨c, firstLit_mem hfl, by simpa using h2⟩

theorem removeTagsGo_id : ∀ (fuel : Nat) {l : Str}, '<' ∉ l →
    removeTagsGo fuel l = l := by
  intro fuel
  induction fuel with
  | zero => intro l _; rfl
  | succ f ih =>
    intro l h
    cases l with
    | nil => rfl
    | cons c rest =>
      have hc : ¬(c = '<') := fun he => h (he ▸ List.mem_cons_self c rest)
      rw [removeTagsGo, if_neg hc]
      rw [ih (fun hm => h (List.mem_cons_of_mem c hm))]

theorem removeHtmlTags_id {l : Str} (h : '<' ∉ l) : removeHtmlTags l = l :=
  removeTagsGo_id l.length h

theorem removeChars_ws_id {l : Str} (h : ∀ c ∈ l, isJsWs c = true) :
    removeChars dangerousChars l = l := by
  rw [removeChars]
  apply List.filter_eq_self.2
  intro c hc
  have hcw := h c hc
  have : ¬ (c ∈ dangerousChars) := by
    intro hmem
    rw [dangerousChars] at hmem
    rcases List.mem_cons.1 hmem with he | hmem <;>
      [skip; rcases List.mem_cons.1 hmem with he | hmem] <;>
      [skip; skip; rcases List.mem_cons.1 hmem with he | hmem] <;>
      [skip; skip; skip; rcases List.mem_cons.1 hmem with he | hmem] <;>
      [skip; skip; skip; skip; rcases List.mem_cons.1 hmem with he | hmem] <;>
      [skip; skip; skip; skip; skip; rcases List.mem_cons.1 hmem with he | hmem] <;>
      [skip; skip; skip; skip; skip; skip;
        rcases List.mem_cons.1 hmem with he | hmem] <;>
      first
        | (subst he; rw [show isJsWs '<' = false from rfl] at hcw; cases hcw)
        | (try subst he) <;> simp_all [isJsWs, quoteChar, dquoteChar, btickChar, bslashChar]
  simp [this]

theorem collapseGo_true_all_ws {l : Str} (h : ∀ c ∈ l, isJsWs c = true) :
    collapseGo true l = [] := by
  induction l with
  | nil => rfl
  | cons d rest ih =>
    rw [collapseGo_cons_ws_t (h d (List.mem_cons_self d rest))]
    exact ih (fun c hc => h c (List.mem_cons_of_mem d hc))

theorem collapseGo_false_all_ws {l : Str} (h : ∀ c ∈ l, isJsWs c = true)
    (hne : l ≠ []) : collapseGo false l = [' '] := by
  cases l with
  | nil => exact absurd rfl hne
  | cons d rest =>
    rw [collapseGo_cons_ws_f (h d (List.mem_cons_self d rest))]
    rw [collapseGo_true_all_ws (fun c hc => h c (List.mem_cons_of_mem d hc))]

/-- `SecurityValidator.sanitize` maps any nonempty whitespace-only
string (within the length cap) to the empty string without error. -/
theorem sanitize_ws {s : Str} (hws : ∀ c ∈ s, isJsWs c = true) (hne : s ≠ [])
    (hlen : s.length ≤ 200) : sanitize s = .ok [] := by
  have hsql : (sqlInjectionPatterns.any (fun p => testPattern p s)) = false := by
    rw [List.any_eq_false]
    intro p hp
    have h := testPattern_ws_false
      (allPatterns_have_lit p (List.mem_append.2 (Or.inl hp))) hws
    simp [h]
  have hblk : (blockedPatterns.any (fun p => testPattern p s)) = false := by
    rw [List.any_eq_false]
    intro p hp
    have h := testPattern_ws_false
      (allPatterns_have_lit p (List.mem_append.2 (Or.inr hp))) hws
    simp [h]
  have hlt : '<' ∉ s := by
    intro hm
    have := hws '<' hm
    cases this
  rw [sanitize, if_neg hne, if_neg (by omega), if_neg (by simp [hsql]),
    if_neg (by simp [hblk])]
  rw [removeHtmlTags_id hlt, removeChars_ws_id hws]
  rw [show collapseWs s = collapseGo false s from rfl]
  rw [collapseGo_false_all_ws hws hne]
  rfl

/-- C7 counterexample: the single-space query (whitespace-only) makes
`search` throw the under-2-characters ValidationError instead of
returning the empty result. -/
theorem search_ws_error_cex :
    (search (⟨[], []⟩ : SSState) ((" ").data) defaultSearchOptions
      (("c").data) 0).1 = .error .tooShort := by decide

/-- C7 amended: `search` returns the empty result without error for the
EMPTY query and for whitespace-only queries of raw length 2..100; a
whitespace-only query of length 1 instead fails with the
under-2-characters ValidationError (raised on the raw length before
trimming). -/
theorem search_ws_query_behavior :
    (∀ (st : SSState) (cid : Str) (opts : SearchOptions) (now : Nat),
      (checkRateLimit cid st.rateLimit 30 60000 now).1 = true →
      (search st [] opts cid now).1 = .ok [])
    ∧ (∀ (st : SSState) (cid : Str) (opts : SearchOptions) (now : Nat) (s : Str),
      (checkRateLimit cid st.rateLimit 30 60000 now).1 = true →
      (∀ c ∈ s, isJsWs c = true) → 2 ≤ s.length → s.length ≤ 100 →
      (search st s opts cid now).1 = .ok [])
    ∧ (∀ (st : SSState) (cid : Str) (opts : SearchOptions) (now : Nat) (s : Str),
      (checkRateLimit cid st.rateLimit 30 60000 now).1 = true →
      (∀ c ∈ s, isJsWs c = true) → s.length = 1 →
      (search st s opts cid now).1 = .error .tooShort) := by
  refine ⟨?_, ?_, ?_⟩
  · intro st cid opts now hrate
    have hsan : sanitizeSearchQuery ([] : Str) = .ok [] := by
      rw [sanitizeSearchQuery, if_pos rfl]
    rw [search, hrate]
    simp [hsan]
  · intro st cid opts now s hrate hws h2 h100
    have hne : s ≠ [] := by
      intro he
      rw [he] at h2
      simp at h2
    have hsan : sanitizeSearchQuery s = .ok [] := by
      rw [sanitizeSearchQuery, if_neg hne, if_neg (by omega), if_neg (by omega)]
      exact sanitize_ws hws hne (by omega)
    rw [search, hrate]
    simp [hsan]
  · intro st cid opts now s hrate hws h1
    have hne : s ≠ [] := by
      intro he
      rw [he] at h1
      simp at h1
    have hsan : sanitizeSearchQuery s = .error .tooShort := by
      rw [sanitizeSearchQuery, if_neg hne, if_neg (by omega), if_pos (by omega)]
    rw [search, hrate]
    simp [hsan]

/-- C7 witness: the empty query, the two-space query (empty result, no
error), and the single-space query (ValidationError). -/
theorem search_ws_query_behavior_witness :
    (search (⟨[], []⟩ : SSState) [] defaultSearchOptions (("c").data) 0).1 = .ok [] ∧
    (search (⟨[], []⟩ : SSState) (("  ").data) defaultSearchOptions
      (("c").data) 0).1 = .ok [] ∧
    (search (⟨[], []⟩ : SSState) ((" ").data) defaultSearchOptions
      (("c").data) 0).1 = .error .tooShort :=
  ⟨search_ws_query_behavior.1 ⟨[], []⟩ (("c").data) defaultSearchOptions 0 (by decide),
   search_ws_query_behavior.2.1 ⟨[], []⟩ (("c").data) defaultSearchOptions 0
     (("  ").data) (by decide) (by decide) (by decide) (by decide),
   search_ws_query_behavior.2.2 ⟨[], []⟩ (("c").data) defaultSearchOptions 0
     ((" ").data) (by decide) (by decide) (by decide)⟩

/-! ### Claim C9: the tier guards of `search` -/

theorem exactTier_fold_score {types : List LType} :
    ∀ (entries : List Entry) (acc : List SearchResult × List Str),
      (∀ r ∈ acc.1, r.score = qOne) →
      ∀ r ∈ (entries.foldl (fun acc entry =>
        if decide (entry.type ∈ types) &&
            !(decide (seenKey entry.name entry.type ∈ acc.2)) then
          (acc.1 ++ [createSearchResult entry qOne],
           acc.2 ++ [seenKey entry.name entry.type])
        else acc) acc).1, r.score = qOne := by
  intro entries
  induction entries with
  | nil => intro acc hacc r hr; exact hacc r hr
  | cons e es ih =>
    intro acc hacc r hr
    rw [List.foldl_cons] at hr
    by_cases hc : (decide (e.type ∈ types) &&
        !(decide (seenKey e.name e.type ∈ acc.2))) = true
    · rw [if_pos hc] at hr
      refine ih _ ?_ r hr
      intro r' hr'
      rcases List.mem_append.1 hr' with h | h
      · exact hacc r' h
      · rcases List.mem_singleton.1 h with rfl
        rfl
    · rw [if_neg hc] at hr
      exact ih acc hacc r hr

/-- Every result the exact tier of `search` collects is scored 1.0. -/
theorem exactTier_score {entries : List Entry} {types : List LType} {r : SearchResult}
    (hr : r ∈ (exactTier entries types).1) : r.score = qOne := by
  rw [exactTier] at hr
  exact exactTier_fold_score entries ([], [])
    (fun r' hr' => absurd hr' (List.not_mem_nil r')) r hr

theorem mem_insertByScore {α : Type} (sc : α → Q) (x a : α) :
    ∀ (l : List α), a ∈ insertByScore sc x l ↔ a = x ∨ a ∈ l := by
  intro l
  induction l with
  | nil => simp [insertByScore]
  | cons y ys ih =>
    rw [insertByScore]
    by_cases hc : qLt (sc y) (sc x) = true
    · rw [if_pos hc]
      simp [List.mem_cons]
    · rw [if_neg hc]
      simp only [List.mem_cons, ih]
      tauto

theorem mem_sortByScore {α : Type} (sc : α → Q) (a : α) (l : List α) :
    a ∈ sortByScore sc l ↔ a ∈ l := by
  rw [sortByScore]
  have hgen : ∀ (l : List α) (acc : List α),
      a ∈ l.foldl (fun acc x => insertByScore sc x acc) acc ↔ a ∈ acc ∨ a ∈ l := by
    intro l
    induction l with
    | nil => intro acc; simp
    | cons x xs ih =>
      intro acc
      rw [List.foldl_cons, ih, mem_insertByScore]
      simp [List.mem_cons]
      tauto
  rw [hgen]
  simp

theorem qLt_qNat_qHalf_false {len lim : Nat} (h : lim ≤ len) :
    qLt (qNat len) (qHalf lim) = false := by
  have hlt : ¬ ((qNat len).num * ((qHalf lim).den : Int) <
      (qHalf lim).num * ((qNat len).den : Int)) := by
    show ¬ ((len : Int) * (((2 : Nat) : Int)) < (lim : Int) * (((1 : Nat) : Int)))
    omega
  simp [qLt, hlt]

/-- C9 confirmed: when the exact tier already holds at least `limit`
results, the partial tier and the fuzzy tier are both skipped, the
output is the sorted, truncated exact tier, every returned result is
scored 1.0, and the result is unchanged under any `minScore` and
`fuzzy` settings. -/
theorem search_exact_tier_fills_limit
    (st : SSState) (q cid : Str) (now : Nat) (opts : SearchOptions) (s : Str)
    (hrate : (checkRateLimit cid st.rateLimit 30 60000 now).1 = true)
    (hsan : sanitizeSearchQuery q = .ok s) (hne : s ≠ [])
    (hfill : opts.limit ≤
      (exactTier ((lookupA st.searchIndex (normalize s)).getD []) opts.types).1.length) :
    (search st q opts cid now).1 =
      .ok ((sortByScore (fun r => r.score)
        (exactTier ((lookupA st.searchIndex (normalize s)).getD []) opts.types).1).take
          opts.limit)
    ∧ (∀ r ∈ (sortByScore (fun r => r.score)
        (exactTier ((lookupA st.searchIndex (normalize s)).getD []) opts.types).1).take
          opts.limit, qEq r.score qOne = true)
    ∧ (∀ (ms2 : Q) (fz2 : Bool),
        (search st q ⟨opts.limit, ms2, opts.types, fz2⟩ cid now).1 =
          (search st q opts cid now).1) := by
  have hq : ∀ (fz : Bool), (fz && qLt (qNat
      (exactTier ((lookupA st.searchIndex (normalize s)).getD []) opts.types).1.length)
      (qHalf opts.limit)) = false := by
    intro fz
    rw [qLt_qNat_qHalf_false hfill, Bool.and_false]
  have hmain : ∀ (ms : Q) (fz : Bool),
      (search st q ⟨opts.limit, ms, opts.types, fz⟩ cid now).1 =
        .ok ((sortByScore (fun r => r.score)
          (exactTier ((lookupA st.searchIndex (normalize s)).getD []) opts.types).1).take
            opts.limit) := by
    intro ms fz
    rw [search, hrate]
    simp only [Bool.not_true, Bool.false_eq_true, if_false, hsan]
    rw [if_neg hne]
    rw [if_neg (show ¬ ((exactTier ((lookupA st.searchIndex (normalize s)).getD [])
      opts.types).1.length < opts.limit) by omega)]
    rw [if_neg (show ¬ ((fz && qLt (qNat (exactTier
        ((lookupA st.searchIndex (normalize s)).getD []) opts.types).1.length)
        (qHalf opts.limit)) = true) by rw [hq fz]; exact Bool.false_ne_true)]
  have hopts : opts = ⟨opts.limit, opts.minScore, opts.types, opts.fuzzy⟩ := rfl
  refine ⟨?_, ?_, ?_⟩
  · rw [hopts]
    exact hmain opts.minScore opts.fuzzy
  · intro r hr
    have h1 := List.take_subset opts.limit _ hr
    have h2 := (mem_sortByScore (fun r => r.score) r _).1 h1
    rw [exactTier_score h2]
    rfl
  · intro ms2 fz2
    rw [hmain ms2 fz2, hopts]
    rw [hmain opts.minScore opts.fuzzy]

/-- C9 witness: a one-record index where the exact tier alone fills
`limit = 1`; the fuzzy/minScore settings do not change the result. -/
theorem search_exact_tier_fills_limit_witness :
    (search ⟨buildSearchIndex [⟨("Bo").data, [], [], [], [], ("Tt").data⟩], []⟩
      (("Bo").data)
      ⟨1, qPoint3, [.region, .district, .council, .chiefdom, .section, .town], true⟩
      (("c").data) 0).1 =
      .ok ((sortByScore (fun r => r.score)
        (exactTier ((lookupA (buildSearchIndex
            [⟨("Bo").data, [], [], [], [], ("Tt").data⟩]) (normalize (("Bo").data))).getD [])
          [.region, .district, .council, .chiefdom, .section, .town]).1).take 1) ∧
    (search ⟨buildSearchIndex [⟨("Bo").data, [], [], [], [], ("Tt").data⟩], []⟩
      (("Bo").data)
      ⟨1, qOne, [.region, .district, .council, .chiefdom, .section, .town], false⟩
      (("c").data) 0).1 =
    (search ⟨buildSearchIndex [⟨("Bo").data, [], [], [], [], ("Tt").data⟩], []⟩
      (("Bo").data)
      ⟨1, qPoint3, [.region, .district, .council, .chiefdom, .section, .town], true⟩
      (("c").data) 0).1 := by
  have h := search_exact_tier_fills_limit
    ⟨buildSearchIndex [⟨("Bo").data, [], [], [], [], ("Tt").data⟩], []⟩
    (("Bo").data) (("c").data) 0
    ⟨1, qPoint3, [.region, .district, .council, .chiefdom, .section, .town], true⟩
    (("Bo").data) (by decide) (by decide) (by decide) (by decide)
  exact ⟨h.1, h.2.2 qOne false⟩

/-! ### Claim C10: stored `null` is treated as a cache miss -/

/-- C10 confirmed, part (a): when the `place-` cache slot holds `null`,
`findPlace`'s `if (cached)` truthiness test fails, so the call ignores
the stored negative result and re-runs the whole miss path (only the
access time is refreshed); part (b): on a name with no raw-data match
and an empty result from the `search` fallback, the miss path stores
`null` under the `place-` key and returns `null` — so by (a) every
subsequent call recomputes the negative result again. -/
theorem findPlace_null_recompute :
    (∀ (st : LSState) (name : Str) (now : Nat) (s : Str),
      sanitize name = .ok s →
      lookupA st.cacheSt.cache (placeKey (normalize s)) = some .nullV →
      findPlace st name now =
        findPlaceMiss ⟨st.rawData, st.searchIndex,
          ⟨st.cacheSt.cache, setA st.cacheSt.times (placeKey (normalize s)) now⟩⟩
          s (normalize s) now)
    ∧ (∀ (st : LSState) (s n : Str) (now : Nat) (v : LSVal) (st2 : LSState),
      st.rawData.find? (fun r =>
        decide (normalize r.idtown = n) || decide (normalize r.idchiefdom = n) ||
        decide (normalize r.iddistrict = n) || decide (normalize r.idregion = n)) = none →
      lsSearch st s 1 now = (.ok v, st2) →
      lengthOfVal v = 0 →
      findPlaceMiss st s n now =
        (.ok .nullV, ⟨st2.rawData, st2.searchIndex,
          setToCache st2.cacheSt (placeKey n) .nullV now⟩)
      ∧ lookupA (setToCache st2.cacheSt (placeKey n) .nullV now).cache (placeKey n) =
          some .nullV) := by
  constructor
  · intro st name now s hsan hnull
    simp only [findPlace, hsan, getFromCache, hnull, Option.isSome_some, if_true,
      truthyOpt, truthyLS, Bool.false_eq_true, if_false]
  · intro st s n now v st2 hfind hsearch hlen
    constructor
    · simp only [findPlaceMiss, hfind, hsearch]
      rw [if_neg (by omega)]
    · exact lookupA_setA _ _ _

/-- C10 witness: a state whose cache already holds `null` for the
normalized name `"zz"`: `findPlace` takes the miss path (part a); the
miss path on empty data stores `null` and returns `null` (part b). -/
theorem findPlace_null_recompute_witness :
    findPlace ⟨[], [], ⟨[(placeKey (("zz").data), .nullV)], [(placeKey (("zz").data), 0)]⟩⟩
        (("zz").data) 7 =
      findPlaceMiss ⟨[], [],
        ⟨[(placeKey (("zz").data), .nullV)], [(placeKey (("zz").data), 7)]⟩⟩
        (("zz").data) (("zz").data) 7 ∧
    findPlaceMiss ⟨[], [], ⟨[], []⟩⟩ (("zz").data) (("zz").data) 7 =
      (.ok .nullV,
        ⟨[], [], setToCache
          (lsSearch (⟨[], [], ⟨[], []⟩⟩ : LSState) (("zz").data) 1 7).2.cacheSt
          (placeKey (("zz").data)) .nullV 7⟩) := by
  constructor
  · have h := findPlace_null_recompute.1
      ⟨[], [], ⟨[(placeKey (("zz").data), .nullV)], [(placeKey (("zz").data), 0)]⟩⟩
      (("zz").data) 7 (("zz").data) (by decide) (by decide)
    rw [h]
    rfl
  · have h := findPlace_null_recompute.2 ⟨[], [], ⟨[], []⟩⟩ (("zz").data) (("zz").data) 7
      (.places []) (lsSearch (⟨[], [], ⟨[], []⟩⟩ : LSState) (("zz").data) 1 7).2
      (by decide) (by decide) (by decide)
    rw [h.1]
    rfl

/-! ### Claim C1: cache bound and LRU eviction -/

theorem mem_setA {β : Type} {m : List (Str × β)} {k : Str} {v : β} {p : Str × β} :
    p ∈ setA m k v → p = (k, v) ∨ p ∈ m := by
  induction m with
  | nil =>
    intro h
    rw [setA] at h
    exact Or.inl (List.mem_singleton.1 h)
  | cons q rest ih =>
    obtain ⟨k', v'⟩ := q
    intro h
    rw [setA] at h
    by_cases hq : k' = k
    · rw [if_pos hq] at h
      rcases List.mem_cons.1 h with h1 | h1
      · exact Or.inl h1
      · exact Or.inr (List.mem_cons_of_mem _ h1)
    · rw [if_neg hq] at h
      rcases List.mem_cons.1 h with h1 | h1
      · exact Or.inr (h1 ▸ List.mem_cons_self _ _)
      · rcases ih h1 with h2 | h2
        · exact Or.inl h2
        · exact Or.inr (List.mem_cons_of_mem _ h2)

theorem mem_delA {β : Type} {m : List (Str × β)} {k : Str} {p : Str × β}
    (h : p ∈ delA m k) : p ∈ m ∧ p.1 ≠ k := by
  rw [delA] at h
  have h1 := List.mem_filter.1 h
  refine ⟨h1.1, ?_⟩
  have := h1.2
  simpa using this

theorem delA_id_of_fresh {β : Type} {m : List (Str × β)} {k : Str}
    (h : ∀ p ∈ m, p.1 ≠ k) : delA m k = m := by
  rw [delA]
  apply List.filter_eq_self.2
  intro p hp
  simpa using h p hp

theorem delA_cons_self {β : Type} {m : List (Str × β)} {k : Str} {v : β}
    (h : ∀ p ∈ m, p.1 ≠ k) : delA ((k, v) :: m) k = m := by
  rw [delA, List.filter_cons]
  rw [if_neg (by simp)]
  exact delA_id_of_fresh h

theorem delA_keys {β : Type} (m : List (Str × β)) (k : Str) :
    (delA m k).map Prod.fst = (m.map Prod.fst).filter (fun x => !(decide (x = k))) := by
  induction m with
  | nil => rfl
  | cons q rest ih =>
    obtain ⟨k', v'⟩ := q
    rw [delA, List.filter_cons, List.map_cons, List.filter_cons]
    by_cases hq : k' = k
    · rw [if_neg (by simp [hq]), if_neg (by simp [hq])]
      exact ih
    · rw [if_pos (by simp [hq]), if_pos (by simp [hq]), List.map_cons, ← delA, ih]

theorem delA_length_lt {β : Type} {m : List (Str × β)} {k : Str}
    (h : k ∈ m.map Prod.fst) : (delA m k).length < m.length := by
  induction m with
  | nil => simp at h
  | cons q rest ih =>
    obtain ⟨k', v'⟩ := q
    rw [delA, List.filter_cons]
    by_cases hq : k' = k
    · rw [if_neg (by simp [hq])]
      have := List.length_filter_le (fun p => !(decide (p.1 = k))) rest
      rw [← delA] at this ⊢
      simp only [List.length_cons]
      omega
    · rw [List.map_cons] at h
      rcases List.mem_cons.1 h with h1 | h1
      · exact absurd h1.symm hq
      · rw [if_pos (by simp [hq]), ← delA, List.length_cons, List.length_cons]
        exact Nat.succ_lt_succ (ih h1)

theorem setA_keys_mem {β : Type} :
    ∀ {m : List (Str × β)} {k : Str} (v : β), k ∈ m.map Prod.fst →
      (setA m k v).map Prod.fst = m.map Prod.fst := by
  intro m
  induction m with
  | nil => intro k v h; simp at h
  | cons q rest ih =>
    obtain ⟨k', v'⟩ := q
    intro k v h
    rw [setA]
    by_cases hq : k' = k
    · rw [if_pos hq, List.map_cons, List.map_cons, hq]
    · rw [if_neg hq, List.map_cons, List.map_cons]
      have h1 : k ∈ rest.map Prod.fst := by
        rw [List.map_cons] at h
        rcases List.mem_cons.1 h with h1 | h1
        · exact absurd h1.symm hq
        · exact h1
      rw [ih v h1]

theorem setA_fresh {β : Type} :
    ∀ {m : List (Str × β)} {k : Str} (v : β), ¬ k ∈ m.map Prod.fst →
      setA m k v = m ++ [(k, v)] := by
  intro m
  induction m with
  | nil => intro k v _; rfl
  | cons q rest ih =>
    obtain ⟨k', v'⟩ := q
    intro k v h
    rw [setA]
    by_cases hq : k' = k
    · exact absurd (List.mem_map.2 ⟨(k', v'), List.mem_cons_self _ _, hq⟩) h
    · rw [if_neg hq,
        ih v (fun hm => h (by rw [List.map_cons]; exact List.mem_cons_of_mem _ hm))]
      rfl

theorem setA_length_le {β : Type} :
    ∀ (m : List (Str × β)) (k : Str) (v : β), (setA m k v).length ≤ m.length + 1 := by
  intro m
  induction m with
  | nil => intro k v; simp [setA]
  | cons q rest ih =>
    obtain ⟨k', v'⟩ := q
    intro k v
    rw [setA]
    by_cases hq : k' = k
    · rw [if_pos hq]
      simp only [List.length_cons]
      omega
    · rw [if_neg hq]
      simp only [List.length_cons]
      exact Nat.succ_le_succ (ih k v)

theorem lookupA_isSome_mem {β : Type} :
    ∀ {m : List (Str × β)} {k : Str}, (lookupA m k).isSome = true → k ∈ m.map Prod.fst := by
  intro m
  induction m with
  | nil => intro k h; simp [lookupA] at h
  | cons q rest ih =>
    obtain ⟨k', v'⟩ := q
    intro k h
    rw [lookupA] at h
    by_cases hq : k' = k
    · exact List.mem_map.2 ⟨(k', v'), List.mem_cons_self _ _, hq⟩
    · rw [if_neg hq] at h
      exact List.mem_cons_of_mem _ (ih h)

theorem lookupA_none_of_fresh {β : Type} :
    ∀ {m : List (Str × β)} {k : Str}, ¬ k ∈ m.map Prod.fst → lookupA m k = none := by
  intro m
  induction m with
  | nil => intro k _; rfl
  | cons q rest ih =>
    obtain ⟨k', v'⟩ := q
    intro k h
    rw [lookupA, if_neg (fun he => h (List.mem_map.2 ⟨(k', v'), List.mem_cons_self _ _, he⟩))]
    exact ih (fun hm => h (by rw [List.map_cons]; exact List.mem_cons_of_mem _ hm))

theorem findOldest_zero : ∀ (l : List (Str × Nat)), findOldest 0 l = ([], 0) := by
  intro l
  rw [findOldest]
  induction l with
  | nil => rfl
  | cons p rest ih =>
    rw [List.foldl_cons, if_neg (by omega)]
    exact ih

theorem foldl_oldest_fixed :
    ∀ (l : List (Str × Nat)) (acc : Str × Nat), (∀ q ∈ l, ¬ q.2 < acc.2) →
      l.foldl (fun best p => if p.2 < best.2 then p else best) acc = acc := by
  intro l
  induction l with
  | nil => intro acc _; rfl
  | cons p rest ih =>
    intro acc h
    rw [List.foldl_cons, if_neg (h p (List.mem_cons_self p rest))]
    exact ih acc (fun q hq => h q (List.mem_cons_of_mem p hq))

/-- On a nonempty list with strictly-increasing access times all below
`init`, the eviction scan returns the first (oldest) entry. -/
theorem findOldest_head {p0 : Str × Nat} {rest : List (Str × Nat)} {init : Nat}
    (h0 : p0.2 < init) (hmono : ∀ q ∈ rest, p0.2 ≤ q.2) :
    findOldest init (p0 :: rest) = p0 := by
  rw [findOldest, List.foldl_cons, if_pos h0]
  exact foldl_oldest_fixed rest p0 (fun q hq => by have := hmono q hq; omega)

/-- The eviction scan returns an entry of the list attaining the
minimum access time, provided some entry beats the initial `now`. -/
theorem findOldest_mem_min :
    ∀ (l : List (Str × Nat)) (init : Nat), l ≠ [] → (∀ p ∈ l, p.2 < init) →
      findOldest init l ∈ l ∧ ∀ p ∈ l, (findOldest init l).2 ≤ p.2 := by
  have hgen : ∀ (l : List (Str × Nat)) (acc : Str × Nat),
      (l.foldl (fun best p => if p.2 < best.2 then p else best) acc = acc ∧
        ∀ p ∈ l, acc.2 ≤ p.2) ∨
      (l.foldl (fun best p => if p.2 < best.2 then p else best) acc ∈ l ∧
        (l.foldl (fun best p => if p.2 < best.2 then p else best) acc).2 ≤ acc.2 ∧
        ∀ p ∈ l, (l.foldl (fun best p => if p.2 < best.2 then p else best) acc).2 ≤ p.2) := by
    intro l
    induction l with
    | nil => intro acc; left; exact ⟨rfl, by simp⟩
    | cons p rest ih =>
      intro acc
      rw [List.foldl_cons]
      by_cases hc : p.2 < acc.2
      · rw [if_pos hc]
        rcases ih p with ⟨he, hall⟩ | ⟨hmem, hle, hall⟩
        · right
          rw [he]
          refine ⟨List.mem_cons_self p rest, by omega, ?_⟩
          intro q hq
          rcases List.mem_cons.1 hq with h1 | h1
          · rw [h1]
          · exact hall q h1
        · right
          refine ⟨List.mem_cons_of_mem p hmem, by omega, ?_⟩
          intro q hq
          rcases List.mem_cons.1 hq with h1 | h1
          · rw [h1]; omega
          · exact hall q h1
      · rw [if_neg hc]
        rcases ih acc with ⟨he, hall⟩ | ⟨hmem, hle, hall⟩
        · left
          refine ⟨he, ?_⟩
          intro q hq
          rcases List.mem_cons.1 hq with h1 | h1
          · rw [h1]; omega
          · exact hall q h1
        · right
          refine ⟨List.mem_cons_of_mem p hmem, hle, ?_⟩
          intro q hq
          rcases List.mem_cons.1 hq with h1 | h1
          · rw [h1]; omega
          · exact hall q h1
  intro l init hne hlt
  rw [findOldest]
  rcases hgen l ([], init) with ⟨he, hall⟩ | ⟨hmem, _, hall⟩
  · cases l with
    | nil => exact absurd rfl hne
    | cons p rest =>
      have := hall p (List.mem_cons_self p rest)
      have := hlt p (List.mem_cons_self p rest)
      simp only [he] at *
      omega
  · exact ⟨hmem, hall⟩

theorem manageCacheSize_zero {α : Type} (st : CacheSt α) :
    manageCacheSize st 0 = st := by
  rw [manageCacheSize]
  by_cases hc : maxCacheSize ≤ st.cache.length
  · rw [if_pos hc, findOldest_zero]
    simp
  · rw [if_neg hc]

theorem aKey_inj {i j : Nat} (h : aKey i = aKey j) : i = j := by
  have := congrArg List.length h
  simpa [aKey] using this

theorem runOps_sameTime :
    ∀ (n : Nat), runOps (sameTimeInserts n) (emptyCache : CacheSt Unit) =
      ⟨(List.range n).map (fun i => (aKey i, ())),
       (List.range n).map (fun i => (aKey i, 0))⟩ := by
  intro n
  induction n with
  | zero => rfl
  | succ m ih =>
    rw [sameTimeInserts, List.range_succ, List.map_append, runOps, List.foldl_append]
    rw [show (List.range m).map (fun i => ((COp.cset (aKey i) () : COp Unit), 0)) =
      sameTimeInserts m from rfl]
    rw [show List.foldl stepOp emptyCache (sameTimeInserts m) =
      runOps (sameTimeInserts m) emptyCache from rfl]
    rw [ih]
    simp only [List.map_cons, List.map_nil, List.foldl_cons, List.foldl_nil]
    rw [show stepOp (⟨(List.range m).map (fun i => (aKey i, ())),
        (List.range m).map (fun i => (aKey i, 0))⟩ : CacheSt Unit)
        ((COp.cset (aKey m) (), 0)) =
      setToCache ⟨(List.range m).map (fun i => (aKey i, ())),
        (List.range m).map (fun i => (aKey i, 0))⟩ (aKey m) () 0 from rfl]
    have hf1 : ¬ aKey m ∈ ((List.range m).map (fun i => (aKey i, ()))).map Prod.fst := by
      intro hm
      rw [List.map_map] at hm
      rcases List.mem_map.1 hm with ⟨i, hi, he⟩
      have : i = m := aKey_inj he
      have := List.mem_range.1 hi
      omega
    have hf2 : ¬ aKey m ∈ ((List.range m).map (fun i => (aKey i, 0))).map Prod.fst := by
      intro hm
      rw [List.map_map] at hm
      rcases List.mem_map.1 hm with ⟨i, hi, he⟩
      have : i = m := aKey_inj he
      have := List.mem_range.1 hi
      omega
    simp only [setToCache, manageCacheSize_zero]
    rw [setA_fresh () hf1, setA_fresh 0 hf2]
    simp [List.map_append]

/-- Claim C1 counterexample: the claim quantifies over every sequence
of get/set operations, yet 1001 distinct nonempty keys inserted within
one millisecond (equal `Date.now()` stamps) leave 1001 > maxCacheSize
live entries: the eviction scan starts at `oldestTime = Date.now()`
with a strict `<` and `oldestKey = ''`, so no same-millisecond entry
qualifies and the falsy `if (oldestKey)` skips the delete. -/
theorem sameTime_cache_overflow :
    (runOps (sameTimeInserts 1001) (emptyCache : CacheSt Unit)).cache.length = 1001 ∧
      maxCacheSize < 1001 := by
  constructor
  · rw [runOps_sameTime]
    simp
  · decide

theorem cacheInv_mono {α : Type} {st : CacheSt α} {b b' : Nat}
    (h : CacheInv st b) (hb : b ≤ b') : CacheInv st b' := by
  refine ⟨h.1, h.2.1, ?_⟩
  intro p hp
  have := h.2.2 p hp
  exact ⟨by omega, this.2⟩

theorem mem_keys_exists {β : Type} {m : List (Str × β)} {k : Str}
    (h : k ∈ m.map Prod.fst) : ∃ v, (k, v) ∈ m := by
  rcases List.mem_map.1 h with ⟨p, hp, he⟩
  exact ⟨p.2, by rw [show (k, p.2) = p from Prod.ext he.symm rfl]; exact hp⟩

theorem cacheInv_lengths {α : Type} {st : CacheSt α} {b : Nat}
    (h : CacheInv st b) : st.cache.length = st.times.length := by
  have := congrArg List.length h.1
  simpa using this

theorem getFromCache_inv {α : Type} {st : CacheSt α} {bound : Nat} (k : Str) (now : Nat)
    (hinv : CacheInv st bound) (hb : bound ≤ now) :
    CacheInv (getFromCache st k now).2 (now + 1) ∧
      (getFromCache st k now).2.cache.length = st.cache.length := by
  rw [getFromCache]
  by_cases hs : (lookupA st.cache k).isSome = true
  · rw [if_pos hs]
    have hkc : k ∈ st.cache.map Prod.fst := lookupA_isSome_mem hs
    have hkt : k ∈ st.times.map Prod.fst := hinv.1 ▸ hkc
    refine ⟨⟨?_, ?_, ?_⟩, rfl⟩
    · rw [setA_keys_mem now hkt]
      exact hinv.1
    · rw [setA_keys_mem now hkt]
      exact hinv.2.1
    · intro p hp
      rcases mem_setA hp with h1 | h1
      · rcases mem_keys_exists hkt with ⟨t, ht⟩
        have := (hinv.2.2 (k, t) ht).2
        rw [h1]
        exact ⟨by omega, this⟩
      · have := hinv.2.2 p h1
        exact ⟨by omega, this.2⟩
  · rw [if_neg hs]
    exact ⟨cacheInv_mono hinv (by omega), rfl⟩

/-- At capacity, under the reachability invariant, `manageCacheSize`
deletes exactly an entry attaining the minimum recorded access time. -/
theorem manage_evicts_oldest {α : Type} {st : CacheSt α} {bound now : Nat}
    (hinv : CacheInv st bound) (hb : bound ≤ now)
    (hlen : maxCacheSize ≤ st.cache.length) :
    ∃ kmin tmin, (kmin, tmin) ∈ st.times ∧ (∀ p ∈ st.times, tmin ≤ p.2) ∧
      manageCacheSize st now = ⟨delA st.cache kmin, delA st.times kmin⟩ := by
  have htne : st.times ≠ [] := by
    intro he
    have := cacheInv_lengths hinv
    rw [he] at this
    simp at this
    rw [this] at hlen
    simp [maxCacheSize] at hlen
  have hall : ∀ p ∈ st.times, p.2 < now := by
    intro p hp
    have := (hinv.2.2 p hp).1
    omega
  rcases findOldest_mem_min st.times now htne hall with ⟨hmem, hmin⟩
  have hkne : (findOldest now st.times).1 ≠ [] := (hinv.2.2 _ hmem).2
  refine ⟨(findOldest now st.times).1, (findOldest now st.times).2, by simpa using hmem,
    hmin, ?_⟩
  rw [manageCacheSize, if_pos hlen]
  simp only [hkne, ne_eq, not_false_eq_true, if_pos]

theorem manageCacheSize_inv {α : Type} {st : CacheSt α} {bound now : Nat}
    (hinv : CacheInv st bound) (hb : bound ≤ now) :
    CacheInv (manageCacheSize st now) bound ∧
      (maxCacheSize ≤ st.cache.length →
        (manageCacheSize st now).cache.length < st.cache.length) ∧
      (manageCacheSize st now).cache.length ≤ st.cache.length := by
  by_cases hlen : maxCacheSize ≤ st.cache.length
  · rcases manage_evicts_oldest hinv hb hlen with ⟨kmin, tmin, hmem, _, heq⟩
    have hkt : kmin ∈ st.times.map Prod.fst := List.mem_map.2 ⟨(kmin, tmin), hmem, rfl⟩
    have hkc : kmin ∈ st.cache.map Prod.fst := by rw [hinv.1]; exact hkt
    rw [heq]
    refine ⟨⟨?_, ?_, ?_⟩, fun _ => delA_length_lt hkc, le_of_lt (delA_length_lt hkc)⟩
    · rw [delA_keys, delA_keys, hinv.1]
    · rw [delA_keys]
      exact List.Nodup.filter _ hinv.2.1
    · intro p hp
      exact hinv.2.2 p (mem_delA hp).1
  · rw [manageCacheSize, if_neg hlen]
    exact ⟨hinv, fun h => absurd h hlen, le_refl _⟩

theorem nodup_snoc {l : List Str} {k : Str} (h : l.Nodup) (hk : ¬ k ∈ l) :
    (l ++ [k]).Nodup := by
  simp [List.nodup_append, h, hk]

theorem setToCache_inv {α : Type} {st : CacheSt α} {bound : Nat} {k : Str} (v : α)
    (now : Nat) (hinv : CacheInv st bound) (hb : bound ≤ now) (hk : k ≠ [])
    (hsize : st.cache.length ≤ maxCacheSize) :
    CacheInv (setToCache st k v now) (now + 1) ∧
      (setToCache st k v now).cache.length ≤ maxCacheSize := by
  rcases manageCacheSize_inv hinv hb with ⟨hinv1, hdec, hle⟩
  have hsmall : (manageCacheSize st now).cache.length < maxCacheSize := by
    by_cases hlen : maxCacheSize ≤ st.cache.length
    · have := hdec hlen
      omega
    · omega
  rw [setToCache]
  set st1 := manageCacheSize st now with hst1
  have hvals : ∀ p ∈ setA st1.times k now, p.2 < now + 1 ∧ p.1 ≠ [] := by
    intro p hp
    rcases mem_setA hp with h1 | h1
    · rw [h1]
      exact ⟨by omega, hk⟩
    · have := hinv1.2.2 p h1
      exact ⟨by omega, this.2⟩
  have hlensA : (setA st1.cache k v).length ≤ maxCacheSize := by
    have := setA_length_le st1.cache k v
    omega
  by_cases hmem : k ∈ st1.cache.map Prod.fst
  · have hmt : k ∈ st1.times.map Prod.fst := hinv1.1 ▸ hmem
    refine ⟨⟨?_, ?_, hvals⟩, hlensA⟩
    · rw [setA_keys_mem v hmem, setA_keys_mem now hmt]
      exact hinv1.1
    · rw [setA_keys_mem now hmt]
      exact hinv1.2.1
  · have hmt : ¬ k ∈ st1.times.map Prod.fst := fun h => hmem (hinv1.1 ▸ h)
    refine ⟨⟨?_, ?_, hvals⟩, hlensA⟩
    · rw [setA_fresh v hmem, setA_fresh now hmt, List.map_append, List.map_append, hinv1.1]
      simp
    · rw [setA_fresh now hmt, List.map_append]
      exact nodup_snoc hinv1.2.1 hmt

theorem stepOp_inv {α : Type} {st : CacheSt α} {bound : Nat} {p : COp α × Nat}
    (hinv : CacheInv st bound) (hb : bound ≤ p.2) (hk : copKey p.1 ≠ [])
    (hsize : st.cache.length ≤ maxCacheSize) :
    CacheInv (stepOp st p) (p.2 + 1) ∧ (stepOp st p).cache.length ≤ maxCacheSize := by
  obtain ⟨op, t⟩ := p
  cases op with
  | cget k =>
    rcases getFromCache_inv k t hinv hb with ⟨h1, h2⟩
    refine ⟨h1, ?_⟩
    have he : stepOp st ((COp.cget k), t) = (getFromCache st k t).2 := rfl
    rw [he, h2]
    exact hsize
  | cset k v =>
    exact setToCache_inv v t hinv hb hk hsize

theorem runOps_inv {α : Type} :
    ∀ (trace : List (COp α × Nat)) (st : CacheSt α) (bound : Nat),
      CacheInv st bound → st.cache.length ≤ maxCacheSize →
      List.Pairwise (fun q r => q.2 < r.2) trace →
      (∀ q ∈ trace, bound ≤ q.2 ∧ copKey q.1 ≠ []) →
      (∃ bound', CacheInv (runOps trace st) bound') ∧
        (runOps trace st).cache.length ≤ maxCacheSize := by
  intro trace
  induction trace with
  | nil => intro st bound hinv hsize _ _; exact ⟨⟨bound, hinv⟩, hsize⟩
  | cons p rest ih =>
    intro st bound hinv hsize hpw hall
    have hp := hall p (List.mem_cons_self p rest)
    rcases stepOp_inv hinv hp.1 hp.2 hsize with ⟨hinv', hsize'⟩
    rw [runOps, List.foldl_cons]
    have hpw' := (List.pairwise_cons.1 hpw)
    exact ih (stepOp st p) (p.2 + 1) hinv' hsize' hpw'.2
      (fun q hq => ⟨hpw'.1 q hq, (hall q (List.mem_cons_of_mem p hq)).2⟩)

theorem cacheInv_empty {α : Type} : CacheInv (emptyCache : CacheSt α) 0 :=
  ⟨rfl, List.nodup_nil, by intro p hp; simp [emptyCache] at hp⟩

theorem stampsFrom_map_fst : ∀ (t0 : Nat) (ks : List Str),
    (stampsFrom t0 ks).map Prod.fst = ks := by
  intro t0 ks
  induction ks generalizing t0 with
  | nil => rfl
  | cons k ks ih =>
    rw [stampsFrom, List.map_cons, ih (t0 + 1)]

theorem stampsFrom_length (t0 : Nat) (ks : List Str) :
    (stampsFrom t0 ks).length = ks.length := by
  have := congrArg List.length (stampsFrom_map_fst t0 ks)
  simpa using this

/-- Running a burst of distinct fresh nonempty-key inserts from a
"window" state keeps exactly the `maxCacheSize` most recent entries. -/
theorem runOps_insertsFrom {α : Type} (v : α) :
    ∀ (ks : List Str) (t0 : Nat) (cur : List (Str × Nat)),
      List.Pairwise (fun p q => p.2 < q.2) cur →
      (∀ p ∈ cur, p.2 < t0) →
      cur.length ≤ maxCacheSize →
      (cur.map Prod.fst).Nodup →
      (∀ k ∈ ks, ¬ k ∈ cur.map Prod.fst) →
      ks.Nodup →
      (∀ k ∈ ks, k ≠ []) →
      (∀ p ∈ cur, p.1 ≠ []) →
      runOps (insertsFrom v t0 ks) ⟨cur.map (fun p => (p.1, v)), cur⟩ =
        ⟨((cur ++ stampsFrom t0 ks).drop
            ((cur ++ stampsFrom t0 ks).length - maxCacheSize)).map (fun p => (p.1, v)),
         (cur ++ stampsFrom t0 ks).drop
            ((cur ++ stampsFrom t0 ks).length - maxCacheSize)⟩ := by
  intro ks
  induction ks with
  | nil =>
    intro t0 cur h3 h4 h5 h6 h7 h8 h9 h10
    rw [insertsFrom, stampsFrom, List.append_nil, runOps, List.foldl_nil,
      show cur.length - maxCacheSize = 0 by omega, List.drop_zero]
  | cons k ks ih =>
    intro t0 cur h3 h4 h5 h6 h7 h8 h9 h10
    rw [insertsFrom, runOps, List.foldl_cons]
    have hkfresh : ¬ k ∈ cur.map Prod.fst := h7 k (List.mem_cons_self k ks)
    have hkne : k ≠ [] := h9 k (List.mem_cons_self k ks)
    have hmapfst : ∀ (l : List (Str × Nat)),
        (l.map (fun p => ((p.1, v) : Str × α))).map Prod.fst = l.map Prod.fst := by
      intro l
      rw [List.map_map]
      rfl
    have hstep_small : ∀ (base : List (Str × Nat)), ¬ k ∈ base.map Prod.fst →
        (⟨setA (base.map (fun p => (p.1, v))) k v, setA base k t0⟩ : CacheSt α) =
          ⟨((base ++ [(k, t0)]).map (fun p => (p.1, v))), base ++ [(k, t0)]⟩ := by
      intro base hb
      rw [setA_fresh v (by rw [hmapfst]; exact hb), setA_fresh t0 hb, List.map_append]
      rfl
    by_cases hfull : maxCacheSize ≤ cur.length
    · -- at capacity: the oldest (first) window entry is evicted
      obtain ⟨c0, ctail, rfl⟩ : ∃ c0 ctail, cur = c0 :: ctail := by
        cases cur with
        | nil => simp [maxCacheSize] at hfull
        | cons a l => exact ⟨a, l, rfl⟩
      obtain ⟨ck, ct⟩ := c0
      have hckne : ck ≠ [] := h10 (ck, ct) (List.mem_cons_self _ _)
      have hct_ne : ∀ p ∈ ctail, p.1 ≠ ck := by
        intro p hp he
        have hmem : ck ∈ ctail.map Prod.fst := List.mem_map.2 ⟨p, hp, he⟩
        have hnd := h6
        rw [List.map_cons] at hnd
        exact (List.nodup_cons.1 hnd).1 hmem
      have hold : findOldest t0 ((ck, ct) :: ctail) = (ck, ct) :=
        findOldest_head (h4 (ck, ct) (List.mem_cons_self _ _))
          (fun q hq => le_of_lt ((List.pairwise_cons.1 h3).1 q hq))
      have hmng : manageCacheSize
          (⟨((ck, ct) :: ctail).map (fun p => (p.1, v)), (ck, ct) :: ctail⟩ : CacheSt α) t0 =
          ⟨ctail.map (fun p => (p.1, v)), ctail⟩ := by
        rw [manageCacheSize, if_pos (by simpa using hfull)]
        simp only [hold]
        rw [if_pos hckne]
        have hc : delA (((ck, ct) :: ctail).map (fun p => (p.1, v))) ck =
            ctail.map (fun p => (p.1, v)) := by
          rw [List.map_cons]
          exact delA_cons_self (by
            intro p hp
            rcases List.mem_map.1 hp with ⟨q, hq, he⟩
            rw [← he]
            exact hct_ne q hq)
        have ht : delA ((ck, ct) :: ctail) ck = ctail := delA_cons_self hct_ne
        rw [hc, ht]
      have hstep : stepOp
          (⟨((ck, ct) :: ctail).map (fun p => (p.1, v)), (ck, ct) :: ctail⟩ : CacheSt α)
          (COp.cset k v, t0) =
          ⟨((ctail ++ [(k, t0)]).map (fun p => (p.1, v))), ctail ++ [(k, t0)]⟩ := by
        show setToCache _ k v t0 = _
        rw [setToCache, hmng]
        exact hstep_small ctail
          (fun hm => hkfresh (by rw [List.map_cons]; exact List.mem_cons_of_mem _ hm))
      rw [hstep, ← runOps]
      have H3 : List.Pairwise (fun p q => p.2 < q.2) (ctail ++ [(k, t0)]) := by
        rw [List.pairwise_append]
        refine ⟨(List.pairwise_cons.1 h3).2, List.pairwise_singleton _ _, ?_⟩
        intro p hp q hq
        rw [List.mem_singleton.1 hq]
        exact h4 p (List.mem_cons_of_mem _ hp)
      have H4 : ∀ p ∈ ctail ++ [(k, t0)], p.2 < t0 + 1 := by
        intro p hp
        rcases List.mem_append.1 hp with h1 | h1
        · have := h4 p (List.mem_cons_of_mem _ h1)
          omega
        · rw [List.mem_singleton.1 h1]
          omega
      have H5 : (ctail ++ [(k, t0)]).length ≤ maxCacheSize := by
        have := h5
        simp only [List.length_cons] at this
        simp only [List.length_append, List.length_singleton]
        omega
      have H6 : ((ctail ++ [(k, t0)]).map Prod.fst).Nodup := by
        rw [List.map_append]
        refine nodup_snoc ?_ ?_
        · have hnd := h6
          rw [List.map_cons] at hnd
          exact (List.nodup_cons.1 hnd).2
        · intro hm
          exact hkfresh (by rw [List.map_cons]; exact List.mem_cons_of_mem _ hm)
      have H7 : ∀ k' ∈ ks, ¬ k' ∈ (ctail ++ [(k, t0)]).map Prod.fst := by
        intro k' hk' hm
        rw [List.map_append] at hm
        rcases List.mem_append.1 hm with h1 | h1
        · exact h7 k' (List.mem_cons_of_mem _ hk')
            (by rw [List.map_cons]; exact List.mem_cons_of_mem _ h1)
        · rw [List.mem_singleton.1 h1] at hk'
          exact (List.nodup_cons.1 h8).1 hk'
      have H10 : ∀ p ∈ ctail ++ [(k, t0)], p.1 ≠ [] := by
        intro p hp
        rcases List.mem_append.1 hp with h1 | h1
        · exact h10 p (List.mem_cons_of_mem _ h1)
        · rw [List.mem_singleton.1 h1]
          exact hkne
      rw [ih (t0 + 1) (ctail ++ [(k, t0)]) H3 H4 H5 H6 H7 (List.nodup_cons.1 h8).2
        (fun k' hk' => h9 k' (List.mem_cons_of_mem _ hk')) H10]
      rw [stampsFrom]
      have hall : ((ck, ct) :: ctail) ++ ((k, t0) :: stampsFrom (t0 + 1) ks) =
          (ck, ct) :: ((ctail ++ [(k, t0)]) ++ stampsFrom (t0 + 1) ks) := by
        simp
      rw [hall]
      have hlen : ((ck, ct) :: ((ctail ++ [(k, t0)]) ++ stampsFrom (t0 + 1) ks)).length -
          maxCacheSize =
          (((ctail ++ [(k, t0)]) ++ stampsFrom (t0 + 1) ks).length - maxCacheSize) + 1 := by
        have hc : ((ck, ct) :: ctail).length ≤ maxCacheSize := h5
        simp only [List.length_cons, List.length_append, List.length_singleton] at *
        omega
      rw [hlen, List.drop_succ_cons]
    · -- below capacity: plain append
      have hmng : manageCacheSize (⟨cur.map (fun p => (p.1, v)), cur⟩ : CacheSt α) t0 =
          ⟨cur.map (fun p => (p.1, v)), cur⟩ := by
        rw [manageCacheSize, if_neg (by simpa using hfull)]
      have hstep : stepOp (⟨cur.map (fun p => (p.1, v)), cur⟩ : CacheSt α)
          (COp.cset k v, t0) =
          ⟨((cur ++ [(k, t0)]).map (fun p => (p.1, v))), cur ++ [(k, t0)]⟩ := by
        show setToCache _ k v t0 = _
        rw [setToCache, hmng]
        exact hstep_small cur hkfresh
      rw [hstep, ← runOps]
      have H3 : List.Pairwise (fun p q => p.2 < q.2) (cur ++ [(k, t0)]) := by
        rw [List.pairwise_append]
        refine ⟨h3, List.pairwise_singleton _ _, ?_⟩
        intro p hp q hq
        rw [List.mem_singleton.1 hq]
        exact h4 p hp
      have H4 : ∀ p ∈ cur ++ [(k, t0)], p.2 < t0 + 1 := by
        intro p hp
        rcases List.mem_append.1 hp with h1 | h1
        · have := h4 p h1
          omega
        · rw [List.mem_singleton.1 h1]
          omega
      have H5 : (cur ++ [(k, t0)]).length ≤ maxCacheSize := by
        simp only [List.length_append, List.length_singleton]
        omega
      have H6 : ((cur ++ [(k, t0)]).map Prod.fst).Nodup := by
        rw [List.map_append]
        exact nodup_snoc h6 hkfresh
      have H7 : ∀ k' ∈ ks, ¬ k' ∈ (cur ++ [(k, t0)]).map Prod.fst := by
        intro k' hk' hm
        rw [List.map_append] at hm
        rcases List.mem_append.1 hm with h1 | h1
        · exact h7 k' (List.mem_cons_of_mem _ hk') h1
        · rw [List.mem_singleton.1 h1] at hk'
          exact (List.nodup_cons.1 h8).1 hk'
      have H10 : ∀ p ∈ cur ++ [(k, t0)], p.1 ≠ [] := by
        intro p hp
        rcases List.mem_append.1 hp with h1 | h1
        · exact h10 p h1
        · rw [List.mem_singleton.1 h1]
          exact hkne
      rw [ih (t0 + 1) (cur ++ [(k, t0)]) H3 H4 H5 H6 H7 (List.nodup_cons.1 h8).2
        (fun k' hk' => h9 k' (List.mem_cons_of_mem _ hk')) H10]
      rw [stampsFrom]
      have hall : cur ++ ((k, t0) :: stampsFrom (t0 + 1) ks) =
          (cur ++ [(k, t0)]) ++ stampsFrom (t0 + 1) ks := by
        simp
      rw [hall]

theorem map_fst_mk {α : Type} (v : α) (l : List (Str × Nat)) :
    (l.map (fun p => ((p.1, v) : Str × α))).map Prod.fst = l.map Prod.fst := by
  rw [List.map_map]
  rfl

theorem runOps_insertsFrom_empty {α : Type} (v : α) (keys : List Str)
    (h1 : keys.Nodup) (h2 : ∀ k ∈ keys, k ≠ []) :
    runOps (insertsFrom v 0 keys) (emptyCache : CacheSt α) =
      ⟨((stampsFrom 0 keys).drop (keys.length - maxCacheSize)).map (fun p => (p.1, v)),
       (stampsFrom 0 keys).drop (keys.length - maxCacheSize)⟩ := by
  have h := runOps_insertsFrom v keys 0 []
    (List.Pairwise.nil)
    (by intro p hp; simp at hp)
    (by simp [maxCacheSize])
    (by simp)
    (by intro k _ hm; simp at hm)
    h1 h2
    (by intro p hp; simp at hp)
  rw [show (emptyCache : CacheSt α) =
    ⟨([] : List (Str × Nat)).map (fun p => (p.1, v)), []⟩ from rfl]
  rw [h, List.nil_append, stampsFrom_length]

set_option maxRecDepth 10000 in
/-- Claim C1 (amended): over every get/set trace whose `Date.now()`
stamps strictly increase (at most one operation per millisecond) and
whose keys are nonempty strings, the cache never exceeds
`maxCacheSize` entries; at capacity, `manageCacheSize` deletes exactly
an entry with the minimum recorded last-access time; and after
inserting `maxSize + k` distinct fresh keys the cache holds exactly
`maxSize` keys, the `k` least-recently-accessed ones being absent. -/
theorem cache_bound_and_lru_eviction :
    (∀ (α : Type) (trace : List (COp α × Nat)),
        List.Pairwise (fun q r => q.2 < r.2) trace →
        (∀ q ∈ trace, copKey q.1 ≠ []) →
        (runOps trace (emptyCache : CacheSt α)).cache.length ≤ maxCacheSize) ∧
    (∀ (α : Type) (st : CacheSt α) (bound now : Nat),
        CacheInv st bound → bound ≤ now → maxCacheSize ≤ st.cache.length →
        ∃ kmin tmin, (kmin, tmin) ∈ st.times ∧ (∀ p ∈ st.times, tmin ≤ p.2) ∧
          manageCacheSize st now = ⟨delA st.cache kmin, delA st.times kmin⟩) ∧
    (∀ (α : Type) (v : α) (keys : List Str),
        keys.Nodup → (∀ k ∈ keys, k ≠ []) →
        (runOps (insertsFrom v 0 keys) (emptyCache : CacheSt α)).cache.map Prod.fst =
            keys.drop (keys.length - maxCacheSize) ∧
          (runOps (insertsFrom v 0 keys) (emptyCache : CacheSt α)).cache.length =
            min keys.length maxCacheSize ∧
          ∀ k ∈ keys.take (keys.length - maxCacheSize),
            lookupA (runOps (insertsFrom v 0 keys) (emptyCache : CacheSt α)).cache k =
              none) := by
  refine ⟨?_, ?_, ?_⟩
  · intro α trace hpw hkeys
    exact (runOps_inv trace emptyCache 0 cacheInv_empty (Nat.zero_le _) hpw
      (fun q hq => ⟨Nat.zero_le _, hkeys q hq⟩)).2
  · intro α st bound now hinv hb hlen
    exact manage_evicts_oldest hinv hb hlen
  · intro α v keys h1 h2
    rw [runOps_insertsFrom_empty v keys h1 h2]
    have ha : (((stampsFrom 0 keys).drop (keys.length - maxCacheSize)).map
        (fun p => ((p.1, v) : Str × α))).map Prod.fst =
        keys.drop (keys.length - maxCacheSize) := by
      rw [map_fst_mk, List.map_drop, stampsFrom_map_fst]
    refine ⟨ha, ?_, ?_⟩
    · rw [List.length_map, List.length_drop, stampsFrom_length]
      omega
    · intro k hk
      have hsplit := List.take_append_drop (keys.length - maxCacheSize) keys
      have hnd : ((keys.take (keys.length - maxCacheSize)) ++
          (keys.drop (keys.length - maxCacheSize))).Nodup := by
        rw [hsplit]
        exact h1
      have hdisj := (List.nodup_append.1 hnd).2.2
      apply lookupA_none_of_fresh
      rw [ha]
      exact fun hm => hdisj hk hm

set_option maxRecDepth 10000 in
theorem wcache_inv : CacheInv wcache 1000 := by
  refine ⟨?_, ?_, ?_⟩
  · rw [wcache]
    simp only [List.map_map]
    rfl
  · rw [wcache]
    simp only [List.map_map]
    have : ((fun p => Prod.fst p) ∘ fun i => (aKey i, i)) = aKey := rfl
    rw [show (Prod.fst ∘ fun i => (aKey i, (i : Nat))) = aKey from rfl]
    exact (List.nodup_range 1000).map (fun a b h => aKey_inj h)
  · intro p hp
    rw [wcache] at hp
    rcases List.mem_map.1 hp with ⟨i, hi, rfl⟩
    exact ⟨by simpa using List.mem_range.1 hi, by simp [aKey]⟩

theorem wcache_full : maxCacheSize ≤ wcache.cache.length := by
  rw [wcache]
  simp [maxCacheSize]

/-- Witness for claim C1: the amended theorem applied to a concrete
two-operation trace, a concrete full cache, and a concrete key list. -/
theorem cache_bound_and_lru_eviction_witness :
    ((runOps [(COp.cset ['a'] (), 0), (COp.cget ['a'], 1)]
        (emptyCache : CacheSt Unit)).cache.length ≤ maxCacheSize) ∧
    (∃ kmin tmin, (kmin, tmin) ∈ wcache.times ∧ (∀ p ∈ wcache.times, tmin ≤ p.2) ∧
        manageCacheSize wcache 2000 = ⟨delA wcache.cache kmin, delA wcache.times kmin⟩) ∧
    ((runOps (insertsFrom () 0 [['a'], ['b']]) (emptyCache : CacheSt Unit)).cache.map
          Prod.fst = [['a'], ['b']].drop ([['a'], ['b']].length - maxCacheSize) ∧
      (runOps (insertsFrom () 0 [['a'], ['b']]) (emptyCache : CacheSt Unit)).cache.length =
        min [['a'], ['b']].length maxCacheSize ∧
      ∀ k ∈ [['a'], ['b']].take ([['a'], ['b']].length - maxCacheSize),
        lookupA (runOps (insertsFrom () 0 [['a'], ['b']])
          (emptyCache : CacheSt Unit)).cache k = none) :=
  ⟨cache_bound_and_lru_eviction.1 Unit [(COp.cset ['a'] (), 0), (COp.cget ['a'], 1)]
      (by decide) (by decide),
   cache_bound_and_lru_eviction.2.1 Unit wcache 1000 2000 wcache_inv (by decide) wcache_full,
   cache_bound_and_lru_eviction.2.2 Unit () [['a'], ['b']] (by decide) (by decide)⟩

/-! ### Claim C4 support: index membership and tier lemmas -/

theorem lookupA_some_mem {β : Type} :
    ∀ {m : List (Str × β)} {k : Str} {v : β}, lookupA m k = some v → (k, v) ∈ m := by
  intro m
  induction m with
  | nil => intro k v h; simp [lookupA] at h
  | cons q rest ih =>
    obtain ⟨k', v'⟩ := q
    intro k v h
    rw [lookupA] at h
    by_cases hq : k' = k
    · rw [if_pos hq] at h
      injection h with h1
      exact List.mem_cons.2 (Or.inl (by rw [← hq, ← h1]))
    · rw [if_neg hq] at h
      exact List.mem_cons_of_mem _ (ih h)

theorem append_sep_inj :
    ∀ {n1 : Str} {n2 s1 s2 : Str}, ¬ '-' ∈ s1 → ¬ '-' ∈ s2 →
      n1 ++ '-' :: s1 = n2 ++ '-' :: s2 → n1 = n2 ∧ s1 = s2 := by
  intro n1
  induction n1 with
  | nil =>
    intro n2 s1 s2 h1 h2 he
    cases n2 with
    | nil =>
      rw [List.nil_append, List.nil_append] at he
      injection he with _ h4
      exact ⟨rfl, h4⟩
    | cons d n2t =>
      rw [List.nil_append, List.cons_append] at he
      injection he with h3 h4
      exact absurd (h4 ▸ List.mem_append_right n2t (List.mem_cons_self _ _)) h1
  | cons c n1t ih =>
    intro n2 s1 s2 h1 h2 he
    cases n2 with
    | nil =>
      rw [List.cons_append, List.nil_append] at he
      injection he with h3 h4
      exact absurd (h4.symm ▸ List.mem_append_right n1t (List.mem_cons_self _ _)) h2
    | cons d n2t =>
      rw [List.cons_append, List.cons_append] at he
      injection he with h3 h4
      rcases ih h1 h2 h4 with ⟨ha, hb⟩
      exact ⟨by rw [h3, ha], hb⟩

theorem dash_not_mem_ltypeStr : ∀ t : LType, ¬ '-' ∈ ltypeStr t := by
  intro t
  cases t <;> decide

theorem ltypeStr_inj : ∀ {t1 t2 : LType}, ltypeStr t1 = ltypeStr t2 → t1 = t2 := by
  intro t1 t2
  cases t1 <;> cases t2 <;> decide

theorem seenKey_inj {n1 n2 : Str} {t1 t2 : LType} (h : seenKey n1 t1 = seenKey n2 t2) :
    n1 = n2 ∧ t1 = t2 := by
  rw [seenKey, seenKey] at h
  have h1 : n1 ++ '-' :: ltypeStr t1 = n2 ++ '-' :: ltypeStr t2 := by
    simpa using h
  rcases append_sep_inj (dash_not_mem_ltypeStr t1) (dash_not_mem_ltypeStr t2) h1 with ⟨ha, hb⟩
  exact ⟨ha, ltypeStr_inj hb⟩

theorem foldl_pres {γ β : Type} (P : γ → Prop) (f : γ → β → γ)
    (hf : ∀ i b, P i → P (f i b)) :
    ∀ (l : List β) (i : γ), P i → P (l.foldl f i) := by
  intro l
  induction l with
  | nil => intro i h; exact h
  | cons b bs ih =>
    intro i h
    rw [List.foldl_cons]
    exact ih (f i b) (hf i b h)

theorem foldl_intro {γ β : Type} (P : γ → Prop) (f : γ → β → γ) (x : β)
    (hf : ∀ i b, P i → P (f i b)) (hx : ∀ i, P (f i x)) :
    ∀ (l : List β), x ∈ l → ∀ (i : γ), P (l.foldl f i) := by
  intro l
  induction l with
  | nil => intro hm; simp at hm
  | cons b bs ih =>
    intro hmem i
    rw [List.foldl_cons]
    rcases List.mem_cons.1 hmem with h1 | h1
    · rw [← h1]
      exact foldl_pres P f hf bs (f i x) (hx i)
    · exact ih h1 (f i b)

theorem length_insertByScore {α : Type} (sc : α → Q) (x : α) :
    ∀ l : List α, (insertByScore sc x l).length = l.length + 1 := by
  intro l
  induction l with
  | nil => rfl
  | cons y ys ih =>
    rw [insertByScore]
    by_cases hc : qLt (sc y) (sc x) = true
    · rw [if_pos hc]
      simp
    · rw [if_neg hc]
      simp only [List.length_cons, ih]

theorem length_sortByScore {α : Type} (sc : α → Q) (l : List α) :
    (sortByScore sc l).length = l.length := by
  rw [sortByScore]
  have hgen : ∀ (l : List α) (acc : List α),
      (l.foldl (fun acc x => insertByScore sc x acc) acc).length = acc.length + l.length := by
    intro l
    induction l with
    | nil => intro acc; simp
    | cons x xs ih =>
      intro acc
      rw [List.foldl_cons, ih, length_insertByScore]
      simp only [List.length_cons]
      omega
  rw [hgen]
  simp

theorem foldl_fst_prefix {β : Type}
    (g : (List SearchResult × List Str) → β → (List SearchResult × List Str))
    (hg : ∀ a b, ∃ t, (g a b).1 = a.1 ++ t) :
    ∀ (l : List β) (acc : List SearchResult × List Str),
      ∃ t, (l.foldl g acc).1 = acc.1 ++ t := by
  intro l
  induction l with
  | nil => intro acc; exact ⟨[], by simp⟩
  | cons b bs ih =>
    intro acc
    rcases hg acc b with ⟨t1, ht1⟩
    rcases ih (g acc b) with ⟨t2, ht2⟩
    exact ⟨t1 ++ t2, by rw [List.foldl_cons, ht2, ht1, List.append_assoc]⟩

theorem partialTier_prefix {idx : Index} {nq : Str} {types : List LType} {ms : Q}
    (acc : List SearchResult × List Str) :
    ∃ t, (partialTier idx nq types ms acc).1 = acc.1 ++ t := by
  have hg : ∀ (a : List SearchResult × List Str) (word : Str),
      ∃ t, ((fun (acc : List SearchResult × List Str) (word : Str) =>
        if 2 < word.length then
          ((lookupA idx word).getD []).foldl (fun acc entry =>
            if decide (entry.type ∈ types) &&
                !(decide (seenKey entry.name entry.type ∈ acc.2)) then
              let score := calculateSimilarity nq entry.normalized
              if qLe ms score then
                (acc.1 ++ [createSearchResult entry score],
                 acc.2 ++ [seenKey entry.name entry.type])
              else acc
            else acc) acc
        else acc) a word).1 = a.1 ++ t := by
    intro a word
    by_cases hw : 2 < word.length
    · simp only [if_pos hw]
      refine foldl_fst_prefix _ ?_ ((lookupA idx word).getD []) a
      intro a2 entry
      by_cases hc1 : (decide (entry.type ∈ types) &&
          !(decide (seenKey entry.name entry.type ∈ a2.2))) = true
      · simp only [if_pos hc1]
        by_cases hc2 : qLe ms (calculateSimilarity nq entry.normalized) = true
        · simp only [if_pos hc2]
          exact ⟨[createSearchResult entry (calculateSimilarity nq entry.normalized)], rfl⟩
        · simp only [if_neg hc2]
          exact ⟨[], by simp⟩
      · simp only [if_neg hc1]
        exact ⟨[], by simp⟩
    · simp only [if_neg hw]
      exact ⟨[], by simp⟩
  exact foldl_fst_prefix _ hg (splitOnSpace nq) acc

theorem partialTier_mem {idx : Index} {nq : Str} {types : List LType} {ms : Q}
    {acc : List SearchResult × List Str} {res : SearchResult} (h : res ∈ acc.1) :
    res ∈ (partialTier idx nq types ms acc).1 := by
  rcases partialTier_prefix acc with ⟨t, ht⟩
  rw [ht]
  exact List.mem_append_left t h

theorem fuzzyTier_prefix {idx : Index} {nq : Str} {types : List LType} {ms : Q}
    (acc : List SearchResult × List Str) :
    ∃ t, (fuzzyTier idx nq types ms acc).1 = acc.1 ++ t := by
  have hg : ∀ (a : List SearchResult × List Str) (entry : Entry),
      ∃ t, ((fun (acc : List SearchResult × List Str) (entry : Entry) =>
        if decide (entry.type ∈ types) &&
            !(decide (seenKey entry.name entry.type ∈ acc.2)) then
          let score := qMul (calculateSimilarity nq entry.normalized) qPoint8
          if qLe ms score then
            (acc.1 ++ [createSearchResult entry score],
             acc.2 ++ [seenKey entry.name entry.type])
          else acc
        else acc) a entry).1 = a.1 ++ t := by
    intro a entry
    by_cases hc1 : (decide (entry.type ∈ types) &&
        !(decide (seenKey entry.name entry.type ∈ a.2))) = true
    · simp only [if_pos hc1]
      by_cases hc2 : qLe ms (qMul (calculateSimilarity nq entry.normalized) qPoint8) = true
      · simp only [if_pos hc2]
        exact ⟨[createSearchResult entry
          (qMul (calculateSimilarity nq entry.normalized) qPoint8)], rfl⟩
      · simp only [if_neg hc2]
        exact ⟨[], by simp⟩
    · simp only [if_neg hc1]
      exact ⟨[], by simp⟩
  exact foldl_fst_prefix _ hg ((lookupA idx (getPhoneticKey nq)).getD []) acc

theorem fuzzyTier_mem {idx : Index} {nq : Str} {types : List LType} {ms : Q}
    {acc : List SearchResult × List Str} {res : SearchResult} (h : res ∈ acc.1) :
    res ∈ (fuzzyTier idx nq types ms acc).1 := by
  rcases fuzzyTier_prefix acc with ⟨t, ht⟩
  rw [ht]
  exact List.mem_append_left t h

theorem addEntryToKey_intro (idx : Index) (key : Str) (entry : Entry) :
    hasTriple (addEntryToKey idx key entry) key entry.name entry.type entry.normalized := by
  rw [hasTriple]
  cases hl : lookupA idx key with
  | none =>
    simp only [addEntryToKey, hl]
    rw [lookupA_setA]
    exact ⟨entry, by simp, rfl, rfl, rfl⟩
  | some entries =>
    simp only [addEntryToKey, hl]
    by_cases hdup : (entries.any (fun e =>
        decide (e.name = entry.name) && decide (e.type = entry.type) &&
        decide (e.normalized = entry.normalized))) = true
    · rw [if_pos hdup, hl]
      rcases List.any_eq_true.1 hdup with ⟨e, he, hprop⟩
      simp only [Bool.and_eq_true, decide_eq_true_eq] at hprop
      exact ⟨e, by simpa using he, hprop.1.1, hprop.1.2, hprop.2⟩
    · rw [if_neg hdup, lookupA_setA]
      simp only [Option.getD_some]
      exact ⟨entry, List.mem_append_right entries (by simp), rfl, rfl, rfl⟩

theorem addEntryToKey_pres (idx : Index) (k2 : Str) (e2 : Entry) {key nm : Str}
    {ty : LType} {nz : Str} (h : hasTriple idx key nm ty nz) :
    hasTriple (addEntryToKey idx k2 e2) key nm ty nz := by
  rcases h with ⟨e, he, hprop⟩
  by_cases hk : k2 = key
  · subst hk
    cases hl : lookupA idx k2 with
    | none =>
      rw [hl] at he
      simp at he
    | some entries =>
      rw [hl] at he
      simp only [Option.getD_some] at he
      rw [hasTriple]
      simp only [addEntryToKey, hl]
      by_cases hdup : (entries.any (fun e =>
          decide (e.name = e2.name) && decide (e.type = e2.type) &&
          decide (e.normalized = e2.normalized))) = true
      · rw [if_pos hdup, hl]
        exact ⟨e, by simpa using he, hprop⟩
      · rw [if_neg hdup, lookupA_setA]
        simp only [Option.getD_some]
        exact ⟨e, List.mem_append_left [e2] he, hprop⟩
  · have hsame : lookupA (addEntryToKey idx k2 e2) key = lookupA idx key := by
      cases hl : lookupA idx k2 with
      | none =>
        simp only [addEntryToKey, hl]
        exact lookupA_setA_ne idx [e2] (fun he2 => hk he2.symm)
      | some entries =>
        simp only [addEntryToKey, hl]
        by_cases hdup : (entries.any (fun e =>
            decide (e.name = e2.name) && decide (e.type = e2.type) &&
            decide (e.normalized = e2.normalized))) = true
        · rw [if_pos hdup]
        · rw [if_neg hdup]
          exact lookupA_setA_ne idx (entries ++ [e2]) (fun he2 => hk he2.symm)
    rw [hasTriple, hsame]
    exact ⟨e, he, hprop⟩

theorem addToIndex_after_first (P : Index → Prop)
    (hP : ∀ (i : Index) (k : Str) (e : Entry), P i → P (addEntryToKey i k e))
    (idx : Index) (name tys : Str) (r : Rec) (hguard : ¬(name = [] ∨ trim name = []))
    (h1 : P (addEntryToKey idx (normalize name)
      ⟨trim name, normalizeLocationType tys, normalize name, r, false⟩)) :
    P (addToIndex idx name tys r) := by
  rw [addToIndex, if_neg hguard]
  have hstep : ∀ (i : Index) (w : Str), P i →
      P (if 2 < w.length then
          addEntryToKey i w ⟨trim name, normalizeLocationType tys, normalize name, r, true⟩
        else i) := by
    intro i w hi
    by_cases hw : 2 < w.length
    · rw [if_pos hw]
      exact hP _ _ _ hi
    · rw [if_neg hw]
      exact hi
  have h2 : P (if 1 < (splitOnSpace (normalize name)).length then
      (splitOnSpace (normalize name)).foldl (fun acc w =>
        if 2 < w.length then
          addEntryToKey acc w ⟨trim name, normalizeLocationType tys, normalize name, r, true⟩
        else acc) (addEntryToKey idx (normalize name)
          ⟨trim name, normalizeLocationType tys, normalize name, r, false⟩)
      else addEntryToKey idx (normalize name)
        ⟨trim name, normalizeLocationType tys, normalize name, r, false⟩) := by
    by_cases hws : 1 < (splitOnSpace (normalize name)).length
    · rw [if_pos hws]
      exact foldl_pres P _ hstep _ _ h1
    · rw [if_neg hws]
      exact h1
  by_cases hpk : getPhoneticKey (normalize name) ≠ normalize name
  · show P (if getPhoneticKey (normalize name) ≠ normalize name then _ else _)
    rw [if_pos hpk]
    exact hP _ _ _ h2
  · show P (if getPhoneticKey (normalize name) ≠ normalize name then _ else _)
    rw [if_neg hpk]
    exact h2

theorem addToIndex_pres (P : Index → Prop)
    (hP : ∀ (i : Index) (k : Str) (e : Entry), P i → P (addEntryToKey i k e))
    (idx : Index) (name tys : Str) (r : Rec) (h : P idx) :
    P (addToIndex idx name tys r) := by
  by_cases hguard : name = [] ∨ trim name = []
  · rw [addToIndex, if_pos hguard]
    exact h
  · exact addToIndex_after_first P hP idx name tys r hguard (hP _ _ _ h)

theorem addToIndex_intro (idx : Index) (name tys : Str) (r : Rec)
    (hname : trim name ≠ []) :
    hasTriple (addToIndex idx name tys r) (normalize name) (trim name)
      (normalizeLocationType tys) (normalize name) := by
  have hguard : ¬(name = [] ∨ trim name = []) := by
    rintro (h1 | h1)
    · exact hname (by rw [h1]; rfl)
    · exact hname h1
  exact addToIndex_after_first
    (fun i => hasTriple i (normalize name) (trim name) (normalizeLocationType tys)
      (normalize name))
    (fun i k e hi => addEntryToKey_pres i k e hi) idx name tys r hguard
    (addEntryToKey_intro idx (normalize name)
      ⟨trim name, normalizeLocationType tys, normalize name, r, false⟩)

theorem addRecord_pres (P : Index → Prop)
    (hP : ∀ (i : Index) (k : Str) (e : Entry), P i → P (addEntryToKey i k e))
    (idx : Index) (r : Rec) (h : P idx) : P (addRecord idx r) := by
  rw [addRecord]
  exact foldl_pres P _ (fun i p hi => addToIndex_pres P hP i p.1 p.2 r hi) _ _ h

theorem addRecord_intro {name tys : Str} (idx : Index) (r : Rec)
    (hmem : (name, tys) ∈ recordFields r) (hname : trim name ≠ []) :
    hasTriple (addRecord idx r) (normalize name) (trim name)
      (normalizeLocationType tys) (normalize name) := by
  rw [addRecord]
  exact foldl_intro
    (fun i => hasTriple i (normalize name) (trim name) (normalizeLocationType tys)
      (normalize name))
    (fun acc p => addToIndex acc p.1 p.2 r) (name, tys)
    (fun i p hi => addToIndex_pres _ (fun i k e hi => addEntryToKey_pres i k e hi)
      i p.1 p.2 r hi)
    (fun i => addToIndex_intro i name tys r hname)
    (recordFields r) hmem idx

theorem buildSearchIndex_has {records : List Rec} {r : Rec} {name tys : Str}
    (hrec : r ∈ records) (hmem : (name, tys) ∈ recordFields r)
    (hname : trim name ≠ []) :
    hasTriple (buildSearchIndex records) (normalize name) (trim name)
      (normalizeLocationType tys) (normalize name) := by
  rw [buildSearchIndex]
  exact foldl_intro
    (fun i => hasTriple i (normalize name) (trim name) (normalizeLocationType tys)
      (normalize name))
    addRecord r
    (fun i r2 hi => addRecord_pres _ (fun i k e hi => addEntryToKey_pres i k e hi) i r2 hi)
    (fun i => addRecord_intro i r hmem hname)
    records hrec []

theorem exactTier_fold_mono {types : List LType} :
    ∀ (entries : List Entry) (acc : List SearchResult × List Str) (s : Str),
      s ∈ acc.2 →
      s ∈ (entries.foldl (fun acc entry =>
        if decide (entry.type ∈ types) &&
            !(decide (seenKey entry.name entry.type ∈ acc.2)) then
          (acc.1 ++ [createSearchResult entry qOne],
           acc.2 ++ [seenKey entry.name entry.type])
        else acc) acc).2 := by
  intro entries
  induction entries with
  | nil => intro acc s hs; exact hs
  | cons e es ih =>
    intro acc s hs
    rw [List.foldl_cons]
    by_cases hc : (decide (e.type ∈ types) &&
        !(decide (seenKey e.name e.type ∈ acc.2))) = true
    · rw [if_pos hc]
      exact ih _ s (List.mem_append_left _ hs)
    · rw [if_neg hc]
      exact ih _ s hs

theorem exactTier_fold_inv {types : List LType} :
    ∀ (entries : List Entry) (acc : List SearchResult × List Str),
      (∀ s ∈ acc.2, ∃ res ∈ acc.1, seenKey res.name res.type = s ∧ res.score = qOne) →
      ∀ s ∈ (entries.foldl (fun acc entry =>
        if decide (entry.type ∈ types) &&
            !(decide (seenKey entry.name entry.type ∈ acc.2)) then
          (acc.1 ++ [createSearchResult entry qOne],
           acc.2 ++ [seenKey entry.name entry.type])
        else acc) acc).2,
        ∃ res ∈ (entries.foldl (fun acc entry =>
          if decide (entry.type ∈ types) &&
              !(decide (seenKey entry.name entry.type ∈ acc.2)) then
            (acc.1 ++ [createSearchResult entry qOne],
             acc.2 ++ [seenKey entry.name entry.type])
          else acc) acc).1, seenKey res.name res.type = s ∧ res.score = qOne := by
  intro entries
  induction entries with
  | nil => intro acc hacc; exact hacc
  | cons e es ih =>
    intro acc hacc
    rw [List.foldl_cons]
    by_cases hc : (decide (e.type ∈ types) &&
        !(decide (seenKey e.name e.type ∈ acc.2))) = true
    · rw [if_pos hc]
      apply ih
      intro s hs
      rcases List.mem_append.1 hs with h1 | h1
      · rcases hacc s h1 with ⟨res, hres, hsk, hsc⟩
        exact ⟨res, List.mem_append_left _ hres, hsk, hsc⟩
      · refine ⟨createSearchResult e qOne, List.mem_append_right _ (by simp), ?_, rfl⟩
        rw [List.mem_singleton.1 h1]
        rfl
    · rw [if_neg hc]
      exact ih acc hacc

theorem exactTier_fold_hits {types : List LType} :
    ∀ (entries : List Entry) (acc : List SearchResult × List Str) (e : Entry),
      e ∈ entries → e.type ∈ types →
      seenKey e.name e.type ∈ (entries.foldl (fun acc entry =>
        if decide (entry.type ∈ types) &&
            !(decide (seenKey entry.name entry.type ∈ acc.2)) then
          (acc.1 ++ [createSearchResult entry qOne],
           acc.2 ++ [seenKey entry.name entry.type])
        else acc) acc).2 := by
  intro entries
  induction entries with
  | nil => intro acc e he; simp at he
  | cons e0 es ih =>
    intro acc e he hty
    rw [List.foldl_cons]
    rcases List.mem_cons.1 he with h1 | h1
    · subst h1
      by_cases hc : (decide (e.type ∈ types) &&
          !(decide (seenKey e.name e.type ∈ acc.2))) = true
      · rw [if_pos hc]
        exact exactTier_fold_mono es _ _ (List.mem_append_right _ (by simp))
      · rw [if_neg hc]
        have hseen : seenKey e.name e.type ∈ acc.2 := by
          have hd : decide (e.type ∈ types) = true := decide_eq_true hty
          rw [hd, Bool.true_and] at hc
          simpa using hc
        exact exactTier_fold_mono es acc _ hseen
    · by_cases hc : (decide (e0.type ∈ types) &&
          !(decide (seenKey e0.name e0.type ∈ acc.2))) = true
      · rw [if_pos hc]
        exact ih _ e h1 hty
      · rw [if_neg hc]
        exact ih acc e h1 hty

theorem exactTier_provides {entries : List Entry} {types : List LType} {e : Entry}
    (he : e ∈ entries) (hty : e.type ∈ types) :
    ∃ res ∈ (exactTier entries types).1,
      res.name = e.name ∧ res.type = e.type ∧ res.score = qOne := by
  have h2 := @exactTier_fold_hits types entries ([], []) e he hty
  have h1 := @exactTier_fold_inv types entries ([], [])
    (by intro s hs; simp at hs)
  rcases h1 _ h2 with ⟨res, hres, hsk, hsc⟩
  rcases seenKey_inj hsk with ⟨hn, ht⟩
  exact ⟨res, hres, hn, ht, hsc⟩

theorem search_ok_form {st : SSState} {q s : Str} {opts : SearchOptions} {cid : Str}
    {now : Nat}
    (hrate : (checkRateLimit cid st.rateLimit 30 60000 now).1 = true)
    (hsan : sanitizeSearchQuery q = .ok s) (hs : s ≠ []) :
    (search st q opts cid now).1 =
      .ok ((sortByScore (fun r => r.score)
        (searchTiers st.searchIndex (normalize s) opts).1).take opts.limit) := by
  rw [search, hrate]
  simp only [Bool.not_true, Bool.false_eq_true, if_false, hsan]
  rw [if_neg hs]
  rfl

theorem searchTiers_mem {idx : Index} {nq : Str} {opts : SearchOptions}
    {res : SearchResult}
    (h : res ∈ (exactTier ((lookupA idx nq).getD []) opts.types).1) :
    res ∈ (searchTiers idx nq opts).1 := by
  rw [searchTiers]
  by_cases hlim : (exactTier ((lookupA idx nq).getD []) opts.types).1.length < opts.limit
  · simp only [if_pos hlim]
    by_cases hfz : (opts.fuzzy && qLt (qNat (partialTier idx nq opts.types opts.minScore
        (exactTier ((lookupA idx nq).getD []) opts.types)).1.length)
        (qHalf opts.limit)) = true
    · simp only [if_pos hfz]
      exact fuzzyTier_mem (partialTier_mem h)
    · simp only [if_neg hfz]
      exact partialTier_mem h
  · simp only [if_neg hlim]
    by_cases hfz : (opts.fuzzy && qLt (qNat (exactTier ((lookupA idx nq).getD [])
        opts.types).1.length) (qHalf opts.limit)) = true
    · simp only [if_pos hfz]
      exact fuzzyTier_mem h
    · simp only [if_neg hfz]
      exact h

theorem search_roundtrip_half {records : List Rec} {r : Rec} {name tys s : Str}
    {opts : SearchOptions} {cid : Str} {now : Nat} {rl : RateMap}
    (hrec : r ∈ records) (hmem : (name, tys) ∈ recordFields r) (hname : trim name ≠ [])
    (hrate : (checkRateLimit cid rl 30 60000 now).1 = true)
    (hsan : sanitizeSearchQuery name = .ok s) (hs : s ≠ [])
    (hnorm : normalize s = normalize name)
    (hty : normalizeLocationType tys ∈ opts.types)
    (hroom : (searchTiers (buildSearchIndex records) (normalize name) opts).1.length ≤
      opts.limit) :
    ∃ out, (search ⟨buildSearchIndex records, rl⟩ name opts cid now).1 = .ok out ∧
      ∃ res ∈ out, res.name = trim name ∧ res.type = normalizeLocationType tys ∧
        res.score = qOne := by
  have hform := @search_ok_form ⟨buildSearchIndex records, rl⟩ name s opts cid now
    hrate hsan hs
  rw [hnorm] at hform
  refine ⟨_, hform, ?_⟩
  rcases buildSearchIndex_has hrec hmem hname with ⟨e, he, hen, het, _⟩
  rcases exactTier_provides he (by rw [het]; exact hty) with ⟨res, hresmem, hrn, hrt, hrs⟩
  have hmem3 : res ∈ (searchTiers (buildSearchIndex records) (normalize name) opts).1 :=
    searchTiers_mem hresmem
  have hlen : (sortByScore (fun r => r.score)
      (searchTiers (buildSearchIndex records) (normalize name) opts).1).length ≤
      opts.limit := by
    rw [length_sortByScore]
    exact hroom
  rw [List.take_of_length_le hlen]
  refine ⟨res, ?_, hrn.trans hen, by rw [hrt, het], hrs⟩
  exact (mem_sortByScore _ res _).2 hmem3

theorem autocomplete_ok_form {st : SSState} {q s : Str} {cid : Str} {lim now : Nat}
    (hrate : (checkRateLimit cid st.rateLimit 50 60000 now).1 = true)
    (hsan : sanitizeSearchQuery q = .ok s) (hs : ¬(s = [] ∨ s.length < 2)) :
    (autocomplete st q cid lim now).1 =
      .ok (((sortByScore (fun i => i.score)
        (acItems st.searchIndex (normalize s)).1).take lim).map (fun i => i.name)) := by
  rw [autocomplete, hrate]
  simp only [Bool.not_true, Bool.false_eq_true, if_false, hsan]
  rw [if_neg hs]
  rfl

theorem acInner_mono {nq : Str} :
    ∀ (B : List Entry) (acc : List ACItem × List Str) (n : Str),
      n ∈ acc.2 →
      n ∈ (B.foldl (fun acc entry =>
        if !(decide (entry.name ∈ acc.2)) then
          let score := calculateSimilarity nq entry.normalized
          if qLt qPoint3 score then
            (acc.1 ++ [⟨entry.name, score⟩], acc.2 ++ [entry.name])
          else acc
        else acc) acc).2 := by
  intro B
  induction B with
  | nil => intro acc n hn; exact hn
  | cons e es ih =>
    intro acc n hn
    rw [List.foldl_cons]
    by_cases hc1 : (!(decide (e.name ∈ acc.2))) = true
    · simp only [if_pos hc1]
      by_cases hc2 : qLt qPoint3 (calculateSimilarity nq e.normalized) = true
      · simp only [if_pos hc2]
        exact ih _ n (List.mem_append_left _ hn)
      · simp only [if_neg hc2]
        exact ih _ n hn
    · simp only [if_neg hc1]
      exact ih _ n hn

theorem acOuter_mono {nq : Str} :
    ∀ (idx : Index) (acc : List ACItem × List Str) (n : Str),
      n ∈ acc.2 →
      n ∈ (idx.foldl (fun (acc : List ACItem × List Str) kv =>
        if containsSub nq kv.1 || containsSub kv.1 nq then
          kv.2.foldl (fun acc entry =>
            if !(decide (entry.name ∈ acc.2)) then
              let score := calculateSimilarity nq entry.normalized
              if qLt qPoint3 score then
                (acc.1 ++ [⟨entry.name, score⟩], acc.2 ++ [entry.name])
              else acc
            else acc) acc
        else acc) acc).2 := by
  intro idx
  induction idx with
  | nil => intro acc n hn; exact hn
  | cons kv rest ih =>
    intro acc n hn
    rw [List.foldl_cons]
    by_cases hg : (containsSub nq kv.1 || containsSub kv.1 nq) = true
    · simp only [if_pos hg]
      exact ih _ n (acInner_mono kv.2 acc n hn)
    · simp only [if_neg hg]
      exact ih _ n hn

theorem acInner_inv {nq : Str} :
    ∀ (B : List Entry) (acc : List ACItem × List Str),
      (∀ n ∈ acc.2, ∃ it ∈ acc.1, ACItem.name it = n) →
      ∀ n ∈ (B.foldl (fun acc entry =>
        if !(decide (entry.name ∈ acc.2)) then
          let score := calculateSimilarity nq entry.normalized
          if qLt qPoint3 score then
            (acc.1 ++ [⟨entry.name, score⟩], acc.2 ++ [entry.name])
          else acc
        else acc) acc).2,
        ∃ it ∈ (B.foldl (fun acc entry =>
          if !(decide (entry.name ∈ acc.2)) then
            let score := calculateSimilarity nq entry.normalized
            if qLt qPoint3 score then
              (acc.1 ++ [⟨entry.name, score⟩], acc.2 ++ [entry.name])
            else acc
          else acc) acc).1, ACItem.name it = n := by
  intro B
  induction B with
  | nil => intro acc hacc; exact hacc
  | cons e es ih =>
    intro acc hacc
    rw [List.foldl_cons]
    by_cases hc1 : (!(decide (e.name ∈ acc.2))) = true
    · simp only [if_pos hc1]
      by_cases hc2 : qLt qPoint3 (calculateSimilarity nq e.normalized) = true
      · simp only [if_pos hc2]
        apply ih
        intro n hn
        rcases List.mem_append.1 hn with h1 | h1
        · rcases hacc n h1 with ⟨it, hit, hname⟩
          exact ⟨it, List.mem_append_left _ hit, hname⟩
        · refine ⟨⟨e.name, calculateSimilarity nq e.normalized⟩,
            List.mem_append_right _ (by simp), ?_⟩
          rw [List.mem_singleton.1 h1]
      · simp only [if_neg hc2]
        exact ih acc hacc
    · simp only [if_neg hc1]
      exact ih acc hacc

theorem acOuter_inv {nq : Str} :
    ∀ (idx : Index) (acc : List ACItem × List Str),
      (∀ n ∈ acc.2, ∃ it ∈ acc.1, ACItem.name it = n) →
      ∀ n ∈ (idx.foldl (fun (acc : List ACItem × List Str) kv =>
        if containsSub nq kv.1 || containsSub kv.1 nq then
          kv.2.foldl (fun acc entry =>
            if !(decide (entry.name ∈ acc.2)) then
              let score := calculateSimilarity nq entry.normalized
              if qLt qPoint3 score then
                (acc.1 ++ [⟨entry.name, score⟩], acc.2 ++ [entry.name])
              else acc
            else acc) acc
        else acc) acc).2,
        ∃ it ∈ (idx.foldl (fun (acc : List ACItem × List Str) kv =>
          if containsSub nq kv.1 || containsSub kv.1 nq then
            kv.2.foldl (fun acc entry =>
              if !(decide (entry.name ∈ acc.2)) then
                let score := calculateSimilarity nq entry.normalized
                if qLt qPoint3 score then
                  (acc.1 ++ [⟨entry.name, score⟩], acc.2 ++ [entry.name])
                else acc
              else acc) acc
          else acc) acc).1, ACItem.name it = n := by
  intro idx
  induction idx with
  | nil => intro acc hacc; exact hacc
  | cons kv rest ih =>
    intro acc hacc
    rw [List.foldl_cons]
    by_cases hg : (containsSub nq kv.1 || containsSub kv.1 nq) = true
    · simp only [if_pos hg]
      exact ih _ (acInner_inv kv.2 acc hacc)
    · simp only [if_neg hg]
      exact ih acc hacc

theorem acInner_hits {nq : Str} {e : Entry}
    (hscore : qLt qPoint3 (calculateSimilarity nq e.normalized) = true) :
    ∀ (B : List Entry) (acc : List ACItem × List Str), e ∈ B →
      e.name ∈ (B.foldl (fun acc entry =>
        if !(decide (entry.name ∈ acc.2)) then
          let score := calculateSimilarity nq entry.normalized
          if qLt qPoint3 score then
            (acc.1 ++ [⟨entry.name, score⟩], acc.2 ++ [entry.name])
          else acc
        else acc) acc).2 := by
  intro B
  induction B with
  | nil => intro acc he; simp at he
  | cons e0 es ih =>
    intro acc he
    rw [List.foldl_cons]
    rcases List.mem_cons.1 he with h1 | h1
    · subst h1
      by_cases hc1 : (!(decide (e.name ∈ acc.2))) = true
      · simp only [if_pos hc1, if_pos hscore]
        exact acInner_mono es _ _ (List.mem_append_right _ (by simp))
      · simp only [if_neg hc1]
        have hseen : e.name ∈ acc.2 := by
          simpa using hc1
        exact acInner_mono es acc _ hseen
    · by_cases hc1 : (!(decide (e0.name ∈ acc.2))) = true
      · simp only [if_pos hc1]
        by_cases hc2 : qLt qPoint3 (calculateSimilarity nq e0.normalized) = true
        · simp only [if_pos hc2]
          exact ih _ h1
        · simp only [if_neg hc2]
          exact ih _ h1
      · simp only [if_neg hc1]
        exact ih _ h1

theorem acItems_provides {idx : Index} {nq key : Str} {B : List Entry} {e : Entry}
    (hpair : (key, B) ∈ idx) (he : e ∈ B)
    (hgate : (containsSub nq key || containsSub key nq) = true)
    (hscore : qLt qPoint3 (calculateSimilarity nq e.normalized) = true) :
    ∃ it ∈ (acItems idx nq).1, ACItem.name it = e.name := by
  have hhits : e.name ∈ (acItems idx nq).2 := by
    rw [acItems]
    refine foldl_intro (fun (acc : List ACItem × List Str) => e.name ∈ acc.2)
      (fun (acc : List ACItem × List Str) kv =>
        if containsSub nq kv.1 || containsSub kv.1 nq then
          kv.2.foldl (fun acc entry =>
            if !(decide (entry.name ∈ acc.2)) then
              let score := calculateSimilarity nq entry.normalized
              if qLt qPoint3 score then
                (acc.1 ++ [⟨entry.name, score⟩], acc.2 ++ [entry.name])
              else acc
            else acc) acc
        else acc)
      (key, B) ?_ ?_ idx hpair ([], [])
    · intro a kv ha
      by_cases hg : (containsSub nq kv.1 || containsSub kv.1 nq) = true
      · simp only [if_pos hg]
        exact acInner_mono kv.2 a _ ha
      · simp only [if_neg hg]
        exact ha
    · intro a
      simp only [if_pos hgate]
      exact acInner_hits hscore B a he
  have hinv := @acOuter_inv nq idx ([], []) (by intro n hn; simp at hn)
  exact hinv _ hhits

theorem autocomplete_roundtrip_half {records : List Rec} {r : Rec} {name tys p sp : Str}
    {cid : Str} {lim now : Nat} {rl : RateMap}
    (hrec : r ∈ records) (hmem : (name, tys) ∈ recordFields r) (hname : trim name ≠ [])
    (hrate : (checkRateLimit cid rl 50 60000 now).1 = true)
    (hsanp : sanitizeSearchQuery p = .ok sp)
    (hsp : ¬(sp = [] ∨ sp.length < 2))
    (hcont : (containsSub (normalize sp) (normalize name) ||
      containsSub (normalize name) (normalize sp)) = true)
    (hscore : qLt qPoint3 (calculateSimilarity (normalize sp) (normalize name)) = true)
    (hroom : (acItems (buildSearchIndex records) (normalize sp)).1.length ≤ lim) :
    ∃ out, (autocomplete ⟨buildSearchIndex records, rl⟩ p cid lim now).1 = .ok out ∧
      trim name ∈ out := by
  have hform := @autocomplete_ok_form ⟨buildSearchIndex records, rl⟩ p sp cid lim now
    hrate hsanp hsp
  refine ⟨_, hform, ?_⟩
  rcases buildSearchIndex_has hrec hmem hname with ⟨e, he, hen, _, henz⟩
  cases hl : lookupA (buildSearchIndex records) (normalize name) with
  | none =>
    rw [hl] at he
    simp at he
  | some B =>
    rw [hl] at he
    simp only [Option.getD_some] at he
    have hpair := lookupA_some_mem hl
    have hsc : qLt qPoint3 (calculateSimilarity (normalize sp) e.normalized) = true := by
      rw [henz]
      exact hscore
    rcases acItems_provides hpair he hcont hsc with ⟨it, hit, hitname⟩
    have hlen : (sortByScore (fun i => i.score)
        (acItems (buildSearchIndex records) (normalize sp)).1).length ≤ lim := by
      rw [length_sortByScore]
      exact hroom
    rw [List.take_of_length_le hlen]
    exact List.mem_map.2 ⟨it, (mem_sortByScore _ it _).2 hit, by rw [hitname, hen]⟩

/-- Claim C4 counterexample: the name `"A ; B"` occurs in the record
set, yet `search` on that exact name returns only a 0.8-scored result
(sanitization strips the `;` before normalization, so the query key
`"a b"` misses the index key `"a  b"` and only the phonetic tier
matches), so no result for that entity carries score 1.0. -/
theorem index_roundtrip_cex :
    ((("A ; B").data, ("region").data) ∈
        recordFields ⟨("A ; B").data, [], [], [], [], ("T").data⟩) ∧
    (search ⟨buildSearchIndex [⟨("A ; B").data, [], [], [], [], ("T").data⟩], []⟩
        (("A ; B").data) defaultSearchOptions (("c").data) 0).1 =
      .ok [⟨("A ; B").data, .region, ("A ; B > A ; B").data,
           ("SL-REGION-a  b").data, ⟨4, 5⟩⟩] ∧
    qEq (⟨4, 5⟩ : Q) qOne = false := by decide

/-- Claim C4 (amended): the round-trip holds for names whose sanitized
form normalizes back to the indexed key.  For every record field name
with nonempty trim, if the rate limiter admits the call, sanitization
returns a form with the same normalization as the name, the entry's
type is enabled, and the accumulated results fit the limit, then
`search` on the exact name returns a result with that trimmed name,
that type and score 1.0; and `autocomplete` returns a list containing
the trimmed name whenever the sanitized prefix's normalization matches
the indexed key as a substring with similarity above 0.3 and the
candidates fit the limit.  Unsanitized names (e.g. containing `;`) have
no such guarantee. -/
theorem index_roundtrip :
    (∀ (records : List Rec) (r : Rec) (name tys s : Str) (opts : SearchOptions)
        (cid : Str) (now : Nat) (rl : RateMap),
      r ∈ records → (name, tys) ∈ recordFields r → trim name ≠ [] →
      (checkRateLimit cid rl 30 60000 now).1 = true →
      sanitizeSearchQuery name = .ok s → s ≠ [] → normalize s = normalize name →
      normalizeLocationType tys ∈ opts.types →
      (searchTiers (buildSearchIndex records) (normalize name) opts).1.length ≤
        opts.limit →
      ∃ out, (search ⟨buildSearchIndex records, rl⟩ name opts cid now).1 = .ok out ∧
        ∃ res ∈ out, res.name = trim name ∧ res.type = normalizeLocationType tys ∧
          res.score = qOne)
    ∧ (∀ (records : List Rec) (r : Rec) (name tys p sp : Str) (cid : Str)
        (lim now : Nat) (rl : RateMap),
      r ∈ records → (name, tys) ∈ recordFields r → trim name ≠ [] →
      (checkRateLimit cid rl 50 60000 now).1 = true →
      sanitizeSearchQuery p = .ok sp → ¬(sp = [] ∨ sp.length < 2) →
      (containsSub (normalize sp) (normalize name) ||
        containsSub (normalize name) (normalize sp)) = true →
      qLt qPoint3 (calculateSimilarity (normalize sp) (normalize name)) = true →
      (acItems (buildSearchIndex records) (normalize sp)).1.length ≤ lim →
      ∃ out, (autocomplete ⟨buildSearchIndex records, rl⟩ p cid lim now).1 = .ok out ∧
        trim name ∈ out) :=
  ⟨fun _ _ _ _ _ _ _ _ _ hrec hmem hname hrate hsan hs hnorm hty hroom =>
    search_roundtrip_half hrec hmem hname hrate hsan hs hnorm hty hroom,
   fun _ _ _ _ _ _ _ _ _ _ hrec hmem hname hrate hsanp hsp hcont hscore hroom =>
    autocomplete_roundtrip_half hrec hmem hname hrate hsanp hsp hcont hscore hroom⟩

/-- Witness for claim C4: the record name `"Bo"` (clean under
sanitization) round-trips through both `search` and `autocomplete`. -/
theorem index_roundtrip_witness :
    (∃ out, (search ⟨buildSearchIndex [⟨("Bo").data, [], [], [], [], []⟩], []⟩
        (("Bo").data) defaultSearchOptions (("c").data) 0).1 = .ok out ∧
      ∃ res ∈ out, res.name = ("Bo").data ∧ res.type = LType.region ∧
        res.score = qOne) ∧
    (∃ out, (autocomplete ⟨buildSearchIndex [⟨("Bo").data, [], [], [], [], []⟩], []⟩
        (("Bo").data) (("c").data) 10 0).1 = .ok out ∧ ("Bo").data ∈ out) :=
  ⟨index_roundtrip.1 [⟨("Bo").data, [], [], [], [], []⟩]
      ⟨("Bo").data, [], [], [], [], []⟩ (("Bo").data) (("region").data) (("Bo").data)
      defaultSearchOptions (("c").data) 0 [] (by decide) (by decide) (by decide)
      (by decide) (by decide) (by decide) (by decide) (by decide) (by decide),
   index_roundtrip.2 [⟨("Bo").data, [], [], [], [], []⟩]
      ⟨("Bo").data, [], [], [], [], []⟩ (("Bo").data) (("region").data) (("Bo").data)
      (("Bo").data) (("c").data) 10 0 [] (by decide) (by decide) (by decide)
      (by decide) (by decide) (by decide) (by decide) (by decide) (by decide)⟩

end SL
